import Mathlib

/-!
# Hybrid scheduling policy (`src/ray/raylet/scheduling/scheduling_policy.cc`)

A shallow embedding of `GetNodeInfo`, `NewHybridPolicy` and `HybridPolicy`.

Modelling conventions.

* `int64_t` node ids are `Int` (no arithmetic is ever performed on ids, so no
  wrap-around is involved); the value `-1` plays the role of "no node", exactly
  as in the source.
* `float` values (utilization, spread threshold, weights, the random draw) are
  exact rationals `ℚ`.
* `absl::flat_hash_map<int64_t, Node>` is an association list; the order of the
  list is the (unspecified) storage order of the hash map, `find` is the lookup.
* `RAY_CHECK` failure is the result `none`.
* The value produced by `distribution(gen)` is the explicit parameter `draw`.
* A `Node` is represented by the answers of its local resource view to the three
  queries used by the policy; the request type `Req` is a parameter.
-/

namespace Ray

/-- The local resource view of a node, as far as the policy queries it:
`IsFeasible(request)`, `IsAvailable(request, ignore_pull_manager_at_capacity)` and
`CalculateCriticalResourceUtilization()`. -/
structure Node (Req : Type) where
  IsFeasible : Req → Bool
  IsAvailable : Req → Bool → Bool
  CalculateCriticalResourceUtilization : ℚ

/-- `struct NodeInfo`. -/
structure NodeInfo where
  is_feasible : Bool
  is_available : Bool
  critical_resource_utilization : ℚ
deriving DecidableEq

/-- `GetNodeInfo(node, resource_request)`. -/
def GetNodeInfo {Req : Type} (node : Node Req) (resource_request : Req) : NodeInfo :=
  if !node.IsFeasible resource_request then
    ⟨false, false, 1⟩
  else if !node.IsAvailable resource_request true then
    ⟨true, false, 1⟩
  else
    ⟨true, true, node.CalculateCriticalResourceUtilization⟩

/-- `nodes.find(id)`: `none` stands for `nodes.end()`. -/
def find {Req : Type} : List (Int × Node Req) → Int → Option (Node Req)
  | [], _ => none
  | (k, v) :: rest, id => if k = id then some v else find rest id

/-- `operator<` on `std::pair<float, int64_t>` (lexicographic). -/
def pairLt (a b : ℚ × Int) : Prop :=
  a.1 < b.1 ∨ (a.1 = b.1 ∧ a.2 < b.2)

instance : DecidableRel pairLt := fun a b => by
  unfold pairLt
  exact inferInstance

/-- The non-strict companion of `pairLt`, used as the sorting relation. -/
def pairLe (a b : ℚ × Int) : Prop :=
  a.1 < b.1 ∨ (a.1 = b.1 ∧ a.2 ≤ b.2)

instance : DecidableRel pairLe := fun a b => by
  unfold pairLe
  exact inferInstance

/-- `std::sort(ids.begin(), ids.end())` on node ids. -/
def sortIds (ids : List Int) : List Int :=
  ids.insertionSort (fun a b => a ≤ b)

/-- `std::sort(ut_node_id.begin(), ut_node_id.end())`. -/
def sortPairs (xs : List (ℚ × Int)) : List (ℚ × Int) :=
  xs.insertionSort pairLe

/-- The loop of lines 122-127: every weight is replaced by the value of `sum` before the
weight is added to it. -/
def cumulate : List (ℚ × Int) → ℚ → List (ℚ × Int)
  | [], _ => []
  | (tmp, id) :: rest, sum => (sum, id) :: cumulate rest (sum + tmp)

/-- The loop of `std::lower_bound` (line 131), a binary search over the positions
`first .. first + len` of `xs`: the middle element `xs[first + len / 2]` is compared with
`value`; if it is less, the search continues behind it, otherwise in the lower half. The first
argument bounds the number of iterations; `len` at least halves in every iteration, so a bound
of `len` is never exhausted. -/
def lowerBoundLoop (xs : List (ℚ × Int)) (value : ℚ × Int) : Nat → Nat → Nat → Nat
  | 0, first, _ => first
  | fuel + 1, first, len =>
    if len = 0 then first
    else
      match xs[first + len / 2]? with
      | some x =>
        if pairLt x value then
          lowerBoundLoop xs value fuel (first + len / 2 + 1) (len - len / 2 - 1)
        else
          lowerBoundLoop xs value fuel first (len / 2)
      | none => first

/-- `std::lower_bound(xs.begin(), xs.end(), value)`: the position returned by the binary
search, `xs.length` standing for `xs.end()`. -/
def lower_bound (xs : List (ℚ × Int)) (value : ℚ × Int) : Nat :=
  lowerBoundLoop xs value xs.length 0 xs.length

/-- Lines 133-138: `if (lb == end) --lb; return lb->second`. -/
def pickAt (xs : List (ℚ × Int)) (lb : Nat) : Int :=
  match xs[if lb = xs.length then lb - 1 else lb]? with
  | some x => x.2
  | none => 0

/-- Lines 120-140 of `NewHybridPolicy`: the weighted draw over the non-empty
list `ut_node_id`; `w` is the value drawn from `[0, sum)`. -/
def weightedPick (ut_node_id : List (ℚ × Int)) (w : ℚ) : Int :=
  let sorted := cumulate (sortPairs ut_node_id) 0
  pickAt sorted (lower_bound sorted (w, 0))

/-- Outcome of the loop over the sorted remote ids (lines 88-112). -/
inductive WalkResult where
  | ret (node_id : Int)
  | done (feasible_node_id : Int) (ut_node_id : List (ℚ × Int))
deriving DecidableEq

/-- The loop of lines 88-112: `none` is a failed `RAY_CHECK`. -/
def walk {Req : Type} (resource_request : Req) (nodes : List (Int × Node Req))
    (spread_threshold : ℚ) :
    List Int → Int → List (ℚ × Int) → Option WalkResult
  | [], feasible_node_id, ut_node_id => some (.done feasible_node_id ut_node_id)
  | node_id :: rest, feasible_node_id, ut_node_id =>
    match find nodes node_id with
    | none => none
    | some node =>
      let info := GetNodeInfo node resource_request
      if !info.is_feasible then
        walk resource_request nodes spread_threshold rest feasible_node_id ut_node_id
      else
        let feasible_node_id := if feasible_node_id = -1 then node_id else feasible_node_id
        if !info.is_available then
          walk resource_request nodes spread_threshold rest feasible_node_id ut_node_id
        else if info.critical_resource_utilization < spread_threshold then
          some (.ret node_id)
        else
          walk resource_request nodes spread_threshold rest feasible_node_id
            (ut_node_id ++ [(1 - info.critical_resource_utilization, node_id)])

/-- Lines 79-86: the ids of all nodes but the local one, sorted ascending. -/
def remoteIds {Req : Type} (nodes : List (Int × Node Req)) (local_node_id : Int) : List Int :=
  sortIds ((nodes.map Prod.fst).filter (fun id => id ≠ local_node_id))

/-- `NewHybridPolicy`; `draw` is the value of `w` on line 130. -/
def NewHybridPolicy {Req : Type} (resource_request : Req) (local_node_id : Int)
    (nodes : List (Int × Node Req)) (spread_threshold : ℚ)
    (force_spillback require_available : Bool) (draw : ℚ) : Option Int :=
  match find nodes local_node_id with
  | none => none
  | some local_node =>
    let local_info := GetNodeInfo local_node resource_request
    if !force_spillback && local_info.is_feasible && local_info.is_available &&
        decide (local_info.critical_resource_utilization < spread_threshold) then
      some local_node_id
    else
      let feasible_node_id : Int :=
        if local_info.is_feasible && !force_spillback then local_node_id else -1
      match walk resource_request nodes spread_threshold (remoteIds nodes local_node_id)
          feasible_node_id [] with
      | none => none
      | some (.ret node_id) => some node_id
      | some (.done feasible_node_id ut_node_id) =>
        if ut_node_id.isEmpty then
          if require_available then some (-1) else some feasible_node_id
        else
          some (weightedPick ut_node_id draw)

/-- `HybridPolicy`: returns the result of `NewHybridPolicy` on its first line. -/
def HybridPolicy {Req : Type} (resource_request : Req) (local_node_id : Int)
    (nodes : List (Int × Node Req)) (spread_threshold : ℚ)
    (force_spillback require_available : Bool) (draw : ℚ) : Option Int :=
  NewHybridPolicy resource_request local_node_id nodes spread_threshold
    force_spillback require_available draw

/-! ## Concrete nodes used in examples -/

/-- A node answering the three queries with constants (the request is ignored). -/
def mkNode (feasible available : Bool) (utilization : ℚ) : Node Unit :=
  ⟨fun _ => feasible, fun _ _ => available, utilization⟩

/-- Scenario C of the specification, with `Local = 0`, `A = 1`, `B = 2`. -/
def scenarioC : List (Int × Node Unit) :=
  [(0, mkNode true true (6/10)), (1, mkNode true true (7/10)), (2, mkNode true true (55/100))]

/-- A map in which the local node `0` is heavily loaded and the remote nodes `2` and `1` (stored
in that order) are lightly loaded for the threshold `1/2`. -/
def exGreedy : List (Int × Node Unit) :=
  [(0, mkNode true true (9/10)), (2, mkNode true true (1/5)), (1, mkNode true true (1/10))]

/-- A map without available nodes: the local node `0` is infeasible, the remote nodes `3` and
`2` (stored in that order) are feasible. -/
def exFallback : List (Int × Node Unit) :=
  [(0, mkNode false false 1), (3, mkNode true false 1), (2, mkNode true false 1)]

/-- A remote node that is available only when admission backpressure is ignored:
`IsAvailable(request, true) = true` and `IsAvailable(request, false) = false`. -/
def backpressured : Node Unit :=
  ⟨fun _ => true, fun _ ignore_pull_manager_at_capacity => ignore_pull_manager_at_capacity, 1/5⟩

/-- A map with a heavily loaded local node `0` and the remote node `1` under backpressure. -/
def exBackpressure : List (Int × Node Unit) :=
  [(0, mkNode true true (9/10)), (1, backpressured)]

/-- A heavily loaded remote node under backpressure: feasible, utilization `9/10`,
`IsAvailable(request, true) = true` and `IsAvailable(request, false) = false`. -/
def backpressuredHeavy : Node Unit :=
  ⟨fun _ => true, fun _ ignore_pull_manager_at_capacity => ignore_pull_manager_at_capacity, 9/10⟩

/-- A map with a heavily loaded local node `0`, the lightly loaded remote node `1` under
backpressure and the lightly loaded remote node `2` free of backpressure. -/
def exBackpressureGreedy : List (Int × Node Unit) :=
  [(0, mkNode true true (9/10)), (1, backpressured), (2, mkNode true true (1/10))]

/-- A map with an infeasible local node `0` and the heavily loaded remote node `1` under
backpressure. -/
def exBackpressureWeighted : List (Int × Node Unit) :=
  [(0, mkNode false false 1), (1, backpressuredHeavy)]

/-- A map in which no node can serve the request right away: the local node `0` is infeasible, the
remote node `1` is under backpressure and the remote node `2` is unavailable. -/
def exBackpressureRequire : List (Int × Node Unit) :=
  [(0, mkNode false false 1), (1, backpressured), (2, mkNode true false 1)]

/-- The sampler as section 4.3 of the specification words it: walking the sorted candidates
with the inclusive running sum `acc + weight`, the first candidate whose bound is `>= draw`
is selected, and the last candidate when no bound reaches the draw. -/
def specSample : List (ℚ × Int) → ℚ → ℚ → Option Int
  | [], _, _ => none
  | (weight, id) :: rest, acc, draw =>
    if draw ≤ acc + weight then some id
    else match rest with
      | [] => some id
      | _ :: _ => specSample rest (acc + weight) draw

/-- Scenario A of the specification, with `Local = 0`, `B = 1`, `C = 2`. -/
def scenarioA : List (Int × Node Unit) :=
  [(0, mkNode true true (9/10)), (1, mkNode true true (2/10)), (2, mkNode false false 1)]

/-- Scenario B of the specification, with `Local = 0`, `A = 1`, `B = 2`: no node is feasible. -/
def scenarioB : List (Int × Node Unit) :=
  [(0, mkNode false false 1), (1, mkNode false false 1), (2, mkNode false false 1)]

/-- A map whose remote nodes `-1` and `3` are feasible and unavailable; the local node `0` is
infeasible. -/
def exNegOne : List (Int × Node Unit) :=
  [(0, mkNode false false 1), (-1, mkNode true false 1), (3, mkNode true false 1)]

/-- A map with the single node `0`, feasible, available and loaded at `9/10`. -/
def exLoadedLocal : List (Int × Node Unit) :=
  [(0, mkNode true true (9/10))]

/-- The variables `best_node_id`, `best_utilization_score` (`none` is `INFINITY`) and
`best_is_available` of lines 165-167. -/
structure Best where
  best_node_id : Int
  best_utilization_score : Option ℚ
  best_is_available : Bool

/-- The round-robin loop of lines 176-226, written after the `return` of line 147. -/
def legacyLoop {Req : Type} (resource_request : Req) (local_node_id : Int)
    (nodes : List (Int × Node Req)) (spread_threshold : ℚ) (require_available : Bool) :
    List Int → Best → Option Int
  | [], best => some best.best_node_id
  | node_id :: rest, best =>
    match find nodes node_id with
    | none => none
    | some node =>
      if !node.IsFeasible resource_request then
        legacyLoop resource_request local_node_id nodes spread_threshold require_available
          rest best
      else
        let ignore_pull_manager_at_capacity := decide (node_id = local_node_id)
        let is_available := node.IsAvailable resource_request ignore_pull_manager_at_capacity
        let critical_resource_utilization :=
          if node.CalculateCriticalResourceUtilization < spread_threshold then 0
          else node.CalculateCriticalResourceUtilization
        let below_best : Bool :=
          match best.best_utilization_score with
          | none => true
          | some score => decide (critical_resource_utilization < score)
        let update_best_node : Bool :=
          if is_available then
            if !best.best_is_available then true else below_best
          else
            !best.best_is_available && below_best && !require_available
        legacyLoop resource_request local_node_id nodes spread_threshold require_available
          rest
          (if update_best_node then ⟨node_id, some critical_resource_utilization, is_available⟩
            else best)

/-- Lines 149-228 of `HybridPolicy`: the statements that follow the `return` of line 147. -/
def legacyRoundRobin {Req : Type} (resource_request : Req) (local_node_id : Int)
    (nodes : List (Int × Node Req)) (spread_threshold : ℚ)
    (force_spillback require_available : Bool) : Option Int :=
  let round := local_node_id :: remoteIds nodes local_node_id
  legacyLoop resource_request local_node_id nodes spread_threshold require_available
    (if force_spillback then round.tail else round) ⟨-1, none, false⟩

/-- The fast-path test of lines 66-67 on a node: feasible, available (queried with the flag
`true`, as `GetNodeInfo` does) and utilization strictly below the threshold. -/
def lightlyLoaded {Req : Type} (resource_request : Req) (spread_threshold : ℚ)
    (node : Node Req) : Bool :=
  node.IsFeasible resource_request && node.IsAvailable resource_request true &&
    decide (node.CalculateCriticalResourceUtilization < spread_threshold)

/-- A node that reaches line 111: feasible, available and not below the threshold. -/
def heavilyLoaded {Req : Type} (resource_request : Req) (spread_threshold : ℚ)
    (node : Node Req) : Bool :=
  node.IsFeasible resource_request && node.IsAvailable resource_request true &&
    !decide (node.CalculateCriticalResourceUtilization < spread_threshold)

/-- Lift a test on nodes to a test on ids through `find` (absent ids fail the test). -/
def testAt {Req : Type} (nodes : List (Int × Node Req)) (p : Node Req → Bool) (id : Int) : Bool :=
  match find nodes id with
  | some node => p node
  | none => false

/-- The pair pushed on line 111 for the node stored under `id`. -/
def weightAt {Req : Type} (nodes : List (Int × Node Req)) (id : Int) : ℚ × Int :=
  match find nodes id with
  | some node => (1 - node.CalculateCriticalResourceUtilization, id)
  | none => (0, id)

/-- The value of `feasible_node_id` after the loop has visited `ids` without returning. -/
def fallbackAfter {Req : Type} (resource_request : Req) (nodes : List (Int × Node Req)) :
    List Int → Int → Int
  | [], feasible_node_id => feasible_node_id
  | id :: rest, feasible_node_id =>
    fallbackAfter resource_request nodes rest
      (if testAt nodes (fun n => n.IsFeasible resource_request) id ∧ feasible_node_id = -1
        then id else feasible_node_id)

/-- The contents of `ut_node_id` after the loop, when the loop did not return: the pairs of
the heavily loaded remote nodes in ascending id order. -/
def candidates {Req : Type} (resource_request : Req) (nodes : List (Int × Node Req))
    (spread_threshold : ℚ) (local_node_id : Int) : List (ℚ × Int) :=
  ((remoteIds nodes local_node_id).filter
    (testAt nodes (heavilyLoaded resource_request spread_threshold))).map (weightAt nodes)

end Ray

namespace Ray

/-! ## Lookup -/

theorem find_isSome_of_mem {Req : Type} (nodes : List (Int × Node Req)) (id : Int)
    (h : id ∈ nodes.map Prod.fst) : ∃ node, find nodes id = some node := by
  induction nodes with
  | nil => simp at h
  | cons kv rest ih =>
    obtain ⟨k, v⟩ := kv
    by_cases hk : k = id
    · exact ⟨v, by simp [find, hk]⟩
    · have hmem : id ∈ rest.map Prod.fst := by
        simp only [List.map_cons, List.mem_cons] at h
        rcases h with h | h
        · exact absurd h.symm hk
        · exact h
      obtain ⟨node, hn⟩ := ih hmem
      exact ⟨node, by simp [find, hk, hn]⟩

theorem mem_of_find_eq_some {Req : Type} (nodes : List (Int × Node Req)) (id : Int)
    (node : Node Req) (h : find nodes id = some node) : id ∈ nodes.map Prod.fst := by
  induction nodes with
  | nil => simp [find] at h
  | cons kv rest ih =>
    obtain ⟨k, v⟩ := kv
    by_cases hk : k = id
    · simp [hk]
    · simp only [find, hk, if_false] at h
      simp only [List.map_cons, List.mem_cons]
      exact Or.inr (ih h)

theorem find_eq_none_of_not_mem {Req : Type} (nodes : List (Int × Node Req)) (id : Int)
    (h : id ∉ nodes.map Prod.fst) : find nodes id = none := by
  cases hf : find nodes id with
  | none => rfl
  | some node => exact absurd (mem_of_find_eq_some nodes id node hf) h

theorem find_perm {Req : Type} {nodes nodes2 : List (Int × Node Req)}
    (hp : nodes.Perm nodes2) (hnd : (nodes.map Prod.fst).Nodup) (id : Int) :
    find nodes id = find nodes2 id := by
  induction hp with
  | nil => rfl
  | cons x _ ih =>
    obtain ⟨k, v⟩ := x
    simp only [List.map_cons, List.nodup_cons] at hnd
    simp [find, ih hnd.2]
  | swap x y l =>
    obtain ⟨k, v⟩ := x
    obtain ⟨k2, v2⟩ := y
    simp only [List.map_cons, List.nodup_cons, List.mem_cons, not_or] at hnd
    by_cases h1 : k = id
    · by_cases h2 : k2 = id
      · exact absurd (h1.trans h2.symm) (fun h => hnd.1.1 h.symm)
      · simp [find, h1, h2]
    · simp [find, h1]
  | trans h1 _ ih1 ih2 =>
    rw [ih1 hnd]
    exact ih2 ((h1.map Prod.fst).nodup_iff.mp hnd)

/-! ## Sorting -/

theorem sortIds_perm (ids : List Int) : (sortIds ids).Perm ids :=
  List.perm_insertionSort _ ids

theorem sortIds_sorted (ids : List Int) : (sortIds ids).Sorted (fun a b => a ≤ b) :=
  List.sorted_insertionSort _ ids

theorem sortIds_congr {ids ids2 : List Int} (h : ids.Perm ids2) : sortIds ids = sortIds ids2 :=
  List.eq_of_perm_of_sorted ((sortIds_perm ids).trans (h.trans (sortIds_perm ids2).symm))
    (sortIds_sorted ids) (sortIds_sorted ids2)

theorem mem_remoteIds {Req : Type} (nodes : List (Int × Node Req)) (l id : Int) :
    id ∈ remoteIds nodes l ↔ id ∈ nodes.map Prod.fst ∧ id ≠ l := by
  unfold remoteIds
  rw [(sortIds_perm _).mem_iff]
  simp

theorem remoteIds_sorted {Req : Type} (nodes : List (Int × Node Req)) (l : Int) :
    (remoteIds nodes l).Sorted (fun a b => a ≤ b) :=
  sortIds_sorted _

theorem remoteIds_perm {Req : Type} {nodes nodes2 : List (Int × Node Req)}
    (hp : nodes.Perm nodes2) (l : Int) : remoteIds nodes l = remoteIds nodes2 l := by
  unfold remoteIds
  exact sortIds_congr ((hp.map Prod.fst).filter _)

/-! ## The loop over the remote nodes -/

theorem walk_eq {Req : Type} (req : Req) (nodes : List (Int × Node Req)) (thr : ℚ) :
    ∀ (ids : List Int) (f : Int) (ut : List (ℚ × Int)),
      (∀ id ∈ ids, id ∈ nodes.map Prod.fst) →
      walk req nodes thr ids f ut =
        match ids.find? (testAt nodes (lightlyLoaded req thr)) with
        | some id => some (.ret id)
        | none => some (.done (fallbackAfter req nodes ids f)
            (ut ++ (ids.filter (testAt nodes (heavilyLoaded req thr))).map (weightAt nodes)))
  | [], f, ut, _ => by simp [walk, fallbackAfter]
  | id :: rest, f, ut, hmem => by
    obtain ⟨node, hn⟩ := find_isSome_of_mem nodes id (hmem id (List.mem_cons_self _ _))
    have hrest : ∀ i ∈ rest, i ∈ nodes.map Prod.fst :=
      fun i hi => hmem i (List.mem_cons_of_mem _ hi)
    have ih := fun f ut => walk_eq req nodes thr rest f ut hrest
    cases hfe : node.IsFeasible req with
    | false =>
      simp [walk, hn, GetNodeInfo, hfe, ih, testAt, lightlyLoaded, heavilyLoaded,
        fallbackAfter, List.find?_cons, List.filter_cons]
    | true =>
      cases hav : node.IsAvailable req true with
      | false =>
        simp [walk, hn, GetNodeInfo, hfe, hav, ih, testAt, lightlyLoaded, heavilyLoaded,
          fallbackAfter, List.find?_cons, List.filter_cons]
      | true =>
        by_cases hu : node.CalculateCriticalResourceUtilization < thr
        · simp [walk, hn, GetNodeInfo, hfe, hav, hu, testAt, lightlyLoaded,
            List.find?_cons]
        · simp [walk, hn, GetNodeInfo, hfe, hav, hu, ih, testAt, lightlyLoaded, heavilyLoaded,
            fallbackAfter, List.find?_cons, List.filter_cons, weightAt]

/-! ## Closed form of the policy -/

theorem NewHybridPolicy_eq {Req : Type} (req : Req) (l : Int) (nodes : List (Int × Node Req))
    (thr : ℚ) (fs ra : Bool) (d : ℚ) (ln : Node Req) (hl : find nodes l = some ln) :
    NewHybridPolicy req l nodes thr fs ra d =
      if fs = false ∧ lightlyLoaded req thr ln = true then some l
      else
        match (remoteIds nodes l).find? (testAt nodes (lightlyLoaded req thr)) with
        | some id => some id
        | none =>
          if candidates req nodes thr l = [] then
            if ra = true then some (-1)
            else some (fallbackAfter req nodes (remoteIds nodes l)
              (if ln.IsFeasible req = true ∧ fs = false then l else -1))
          else some (weightedPick (candidates req nodes thr l) d) := by
  have hw := fun f => walk_eq req nodes thr (remoteIds nodes l) f []
    (fun id hid => ((mem_remoteIds nodes l id).mp hid).1)
  unfold NewHybridPolicy
  rw [hl]
  simp only [hw]
  by_cases hfast : fs = false ∧ lightlyLoaded req thr ln = true
  · obtain ⟨hfs, hll⟩ := hfast
    simp only [lightlyLoaded, Bool.and_eq_true, decide_eq_true_eq] at hll
    simp [hfs, GetNodeInfo, hll.1.1, hll.1.2, hll.2, lightlyLoaded]
  · rw [if_neg hfast]
    have hno : (!fs && (GetNodeInfo ln req).is_feasible && (GetNodeInfo ln req).is_available &&
        decide ((GetNodeInfo ln req).critical_resource_utilization < thr)) = false := by
      rw [Bool.eq_false_iff]
      intro hc
      apply hfast
      simp only [Bool.and_eq_true, Bool.not_eq_true', decide_eq_true_eq] at hc
      obtain ⟨⟨⟨h1, h2⟩, h3⟩, h4⟩ := hc
      refine ⟨h1, ?_⟩
      unfold GetNodeInfo at h2 h3 h4
      cases hfe : ln.IsFeasible req <;> cases hav : ln.IsAvailable req true <;>
        simp_all [lightlyLoaded]
    rw [hno]
    have hfeas : (GetNodeInfo ln req).is_feasible = ln.IsFeasible req := by
      unfold GetNodeInfo
      cases hfe : ln.IsFeasible req <;> cases hav : ln.IsAvailable req true <;> simp
    rw [hfeas]
    cases hfind : (remoteIds nodes l).find? (testAt nodes (lightlyLoaded req thr)) with
    | some id => simp
    | none =>
      simp only [List.nil_append, candidates]
      cases hfe : ln.IsFeasible req <;> cases fs <;> cases ra <;> simp [List.isEmpty_iff]
/-! ## The weighted pick -/

theorem cumulate_map_snd (xs : List (ℚ × Int)) (s : ℚ) :
    (cumulate xs s).map Prod.snd = xs.map Prod.snd := by
  induction xs generalizing s with
  | nil => rfl
  | cons x rest ih =>
    obtain ⟨w, id⟩ := x
    simp [cumulate, ih]

theorem lowerBoundLoop_fuel (xs : List (ℚ × Int)) (v : ℚ × Int) :
    ∀ (fuel fuel2 first len : Nat), len ≤ fuel → len ≤ fuel2 →
      lowerBoundLoop xs v fuel first len = lowerBoundLoop xs v fuel2 first len
  | 0, fuel2, first, len, h1, _ => by
    have hlen : len = 0 := Nat.le_zero.mp h1
    subst hlen
    cases fuel2 <;> simp [lowerBoundLoop]
  | fuel + 1, 0, first, len, _, h2 => by
    have hlen : len = 0 := Nat.le_zero.mp h2
    subst hlen
    simp [lowerBoundLoop]
  | fuel + 1, fuel2 + 1, first, len, h1, h2 => by
    unfold lowerBoundLoop
    by_cases hlen : len = 0
    · simp [hlen]
    · simp only [hlen, if_false]
      cases xs[first + len / 2]? with
      | none => rfl
      | some x =>
        simp only
        rw [lowerBoundLoop_fuel xs v fuel fuel2 (first + len / 2 + 1) (len - len / 2 - 1)
            (by omega) (by omega),
          lowerBoundLoop_fuel xs v fuel fuel2 first (len / 2) (by omega) (by omega)]

theorem lowerBoundLoop_bounds (xs : List (ℚ × Int)) (v : ℚ × Int) :
    ∀ (fuel first len : Nat),
      first ≤ lowerBoundLoop xs v fuel first len ∧
        lowerBoundLoop xs v fuel first len ≤ first + len
  | 0, first, len => by simp [lowerBoundLoop]
  | fuel + 1, first, len => by
    unfold lowerBoundLoop
    by_cases hlen : len = 0
    · simp [hlen]
    · simp only [hlen, if_false]
      cases xs[first + len / 2]? with
      | none => simp
      | some x =>
        simp only
        have ih1 := lowerBoundLoop_bounds xs v fuel (first + len / 2 + 1) (len - len / 2 - 1)
        have ih2 := lowerBoundLoop_bounds xs v fuel first (len / 2)
        split
        · constructor <;> omega
        · constructor <;> omega

theorem lower_bound_le (xs : List (ℚ × Int)) (v : ℚ × Int) :
    lower_bound xs v ≤ xs.length := by
  have h := (lowerBoundLoop_bounds xs v xs.length 0 xs.length).2
  simpa [lower_bound] using h

/-- On a range partitioned at `k` the search returns `k`. -/
theorem lowerBoundLoop_partitioned (xs : List (ℚ × Int)) (v : ℚ × Int) (k : Nat) :
    ∀ (fuel first len : Nat), len ≤ fuel → first ≤ k → k ≤ first + len →
      first + len ≤ xs.length →
      (∀ i x, first ≤ i → i < k → xs[i]? = some x → pairLt x v) →
      (∀ i x, k ≤ i → i < first + len → xs[i]? = some x → ¬ pairLt x v) →
      lowerBoundLoop xs v fuel first len = k
  | 0, first, len, h1, h2, h3, _, _, _ => by
    simp only [lowerBoundLoop]
    omega
  | fuel + 1, first, len, h1, h2, h3, h4, hlt, hge => by
    unfold lowerBoundLoop
    by_cases hlen : len = 0
    · simp only [hlen, if_true]
      omega
    · simp only [hlen, if_false]
      have hmid : first + len / 2 < xs.length := by omega
      have hget : xs[first + len / 2]? = some (xs[first + len / 2]) :=
        List.getElem?_eq_getElem hmid
      rw [hget]
      simp only
      by_cases hp : pairLt xs[first + len / 2] v
      · rw [if_pos hp]
        have hk : first + len / 2 < k := by
          by_contra hcon
          exact hge (first + len / 2) _ (by omega) (by omega) hget hp
        exact lowerBoundLoop_partitioned xs v k fuel (first + len / 2 + 1) (len - len / 2 - 1)
          (by omega) (by omega) (by omega) (by omega)
          (fun i x hi1 hi2 hx => hlt i x (by omega) hi2 hx)
          (fun i x hi1 hi2 hx => hge i x hi1 (by omega) hx)
      · rw [if_neg hp]
        have hk : k ≤ first + len / 2 := by
          by_contra hcon
          exact hp (hlt (first + len / 2) _ (by omega) (by omega) hget)
        exact lowerBoundLoop_partitioned xs v k fuel first (len / 2)
          (by omega) h2 hk (by omega)
          (fun i x hi1 hi2 hx => hlt i x hi1 hi2 hx)
          (fun i x hi1 hi2 hx => hge i x hi1 (by omega) hx)

theorem pickAt_mem (xs : List (ℚ × Int)) (lb : Nat) (hlb : lb ≤ xs.length) (hne : xs ≠ []) :
    pickAt xs lb ∈ xs.map Prod.snd := by
  have hpos : 0 < xs.length := List.length_pos.mpr hne
  have hidx : (if lb = xs.length then lb - 1 else lb) < xs.length := by
    split <;> omega
  unfold pickAt
  rw [List.getElem?_eq_getElem hidx]
  exact List.mem_map_of_mem _ (List.getElem_mem _)

theorem weightedPick_mem (c : List (ℚ × Int)) (d : ℚ) (hne : c ≠ []) :
    weightedPick c d ∈ c.map Prod.snd := by
  have hperm : (sortPairs c).Perm c := List.perm_insertionSort _ c
  have hne2 : cumulate (sortPairs c) 0 ≠ [] := by
    intro h
    have h2 := congrArg List.length (cumulate_map_snd (sortPairs c) 0)
    rw [h] at h2
    simp only [List.map_nil, List.length_nil, List.length_map] at h2
    rw [hperm.length_eq] at h2
    exact hne (List.length_eq_zero.mp h2.symm)
  have h := pickAt_mem (cumulate (sortPairs c) 0)
    (lower_bound (cumulate (sortPairs c) 0) (d, 0)) (lower_bound_le _ _) hne2
  rw [cumulate_map_snd] at h
  exact ((hperm.map Prod.snd).mem_iff).mp h

theorem weightAt_snd {Req : Type} (nodes : List (Int × Node Req)) (id : Int) :
    (weightAt nodes id).2 = id := by
  unfold weightAt
  split <;> rfl

theorem mem_candidates_snd {Req : Type} (req : Req) (nodes : List (Int × Node Req)) (thr : ℚ)
    (l id : Int) :
    id ∈ (candidates req nodes thr l).map Prod.snd ↔
      id ∈ remoteIds nodes l ∧ testAt nodes (heavilyLoaded req thr) id = true := by
  unfold candidates
  simp only [List.map_map, List.mem_map, List.mem_filter, Function.comp, weightAt_snd]
  constructor
  · rintro ⟨a, ha, rfl⟩
    exact ha
  · intro h
    exact ⟨id, h, rfl⟩

/-! ## The fallback candidate -/

theorem fallbackAfter_of_ne {Req : Type} (req : Req) (nodes : List (Int × Node Req))
    (ids : List Int) (f : Int) (hf : f ≠ -1) : fallbackAfter req nodes ids f = f := by
  induction ids with
  | nil => rfl
  | cons id rest ih => simp [fallbackAfter, hf, ih]

theorem fallbackAfter_cases {Req : Type} (req : Req) (nodes : List (Int × Node Req))
    (ids : List Int) (f : Int) :
    fallbackAfter req nodes ids f = f ∨
      (fallbackAfter req nodes ids f ∈ ids ∧
        testAt nodes (fun n => n.IsFeasible req) (fallbackAfter req nodes ids f) = true) := by
  induction ids generalizing f with
  | nil => exact Or.inl rfl
  | cons id rest ih =>
    unfold fallbackAfter
    by_cases hc : testAt nodes (fun n => n.IsFeasible req) id = true ∧ f = -1
    · rw [if_pos hc]
      rcases ih id with h | h
      · right
        rw [h]
        exact ⟨List.mem_cons_self _ _, hc.1⟩
      · exact Or.inr ⟨List.mem_cons_of_mem _ h.1, h.2⟩
    · rw [if_neg hc]
      rcases ih f with h | h
      · exact Or.inl h
      · exact Or.inr ⟨List.mem_cons_of_mem _ h.1, h.2⟩

theorem fallbackAfter_neg_one {Req : Type} (req : Req) (nodes : List (Int × Node Req))
    (ids : List Int) (hids : (-1 : Int) ∉ ids) :
    fallbackAfter req nodes ids (-1) =
      ((ids.find? (testAt nodes (fun n => n.IsFeasible req))).getD (-1)) := by
  induction ids with
  | nil => rfl
  | cons id rest ih =>
    simp only [List.mem_cons, not_or] at hids
    unfold fallbackAfter
    cases ht : testAt nodes (fun n => n.IsFeasible req) id with
    | true =>
      have hid : id ≠ -1 := fun h => hids.1 h.symm
      simp [List.find?_cons, ht, fallbackAfter_of_ne req nodes rest id hid]
    | false =>
      simp [List.find?_cons, ht, ih hids.2]

/-! ## First match in a sorted list -/

theorem find?_sorted_le (p : Int → Bool) (ids : List Int)
    (hs : ids.Sorted (fun a b => a ≤ b)) (x : Int) (hx : ids.find? p = some x) :
    ∀ y ∈ ids, p y = true → x ≤ y := by
  induction ids with
  | nil => simp at hx
  | cons id rest ih =>
    intro y hy hpy
    rw [List.sorted_cons] at hs
    cases hp : p id with
    | true =>
      simp only [List.find?_cons, hp, Option.some.injEq] at hx
      subst hx
      rcases List.mem_cons.mp hy with h | h
      · exact h ▸ le_refl _
      · exact hs.1 y h
    | false =>
      simp only [List.find?_cons, hp] at hx
      rcases List.mem_cons.mp hy with h | h
      · rw [h, hp] at hpy
        exact absurd hpy (by simp)
      · exact ih hs.2 hx y h hpy

/-! ## Tests on ids and tests on nodes -/

theorem testAt_eq_true_iff {Req : Type} (nodes : List (Int × Node Req)) (p : Node Req → Bool)
    (id : Int) : testAt nodes p id = true ↔ ∃ n, find nodes id = some n ∧ p n = true := by
  unfold testAt
  cases h : find nodes id with
  | none => simp
  | some n => simp

theorem exists_remote_iff {Req : Type} (nodes : List (Int × Node Req)) (p : Node Req → Bool)
    (l : Int) :
    (∃ id ∈ remoteIds nodes l, testAt nodes p id = true) ↔
      ∃ id n, id ≠ l ∧ find nodes id = some n ∧ p n = true := by
  constructor
  · rintro ⟨id, hid, ht⟩
    obtain ⟨n, hn, hp⟩ := (testAt_eq_true_iff nodes p id).mp ht
    exact ⟨id, n, ((mem_remoteIds nodes l id).mp hid).2, hn, hp⟩
  · rintro ⟨id, n, hne, hn, hp⟩
    exact ⟨id, (mem_remoteIds nodes l id).mpr ⟨mem_of_find_eq_some nodes id n hn, hne⟩,
      (testAt_eq_true_iff nodes p id).mpr ⟨n, hn, hp⟩⟩

theorem find?_remote_eq_none_iff {Req : Type} (nodes : List (Int × Node Req))
    (p : Node Req → Bool) (l : Int) :
    (remoteIds nodes l).find? (testAt nodes p) = none ↔
      ∀ id n, id ≠ l → find nodes id = some n → p n = false := by
  rw [List.find?_eq_none]
  constructor
  · intro h id n hne hn
    have := h id ((mem_remoteIds nodes l id).mpr ⟨mem_of_find_eq_some nodes id n hn, hne⟩)
    rw [Bool.eq_false_iff]
    intro hp
    exact this ((testAt_eq_true_iff nodes p id).mpr ⟨n, hn, hp⟩)
  · intro h id hid ht
    obtain ⟨n, hn, hp⟩ := (testAt_eq_true_iff nodes p id).mp ht
    rw [h id n ((mem_remoteIds nodes l id).mp hid).2 hn] at hp
    exact absurd hp (by simp)

theorem candidates_eq_nil_iff {Req : Type} (req : Req) (nodes : List (Int × Node Req))
    (thr : ℚ) (l : Int) :
    candidates req nodes thr l = [] ↔
      ∀ id n, id ≠ l → find nodes id = some n → heavilyLoaded req thr n = false := by
  unfold candidates
  rw [List.map_eq_nil_iff, List.filter_eq_nil_iff]
  constructor
  · intro h id n hne hn
    have := h id ((mem_remoteIds nodes l id).mpr ⟨mem_of_find_eq_some nodes id n hn, hne⟩)
    rw [Bool.eq_false_iff]
    intro hp
    exact this ((testAt_eq_true_iff nodes _ id).mpr ⟨n, hn, hp⟩)
  · intro h id hid ht
    obtain ⟨n, hn, hp⟩ := (testAt_eq_true_iff nodes _ id).mp ht
    rw [h id n ((mem_remoteIds nodes l id).mp hid).2 hn] at hp
    exact absurd hp (by simp)

/-- The first lightly loaded remote id, when there is one: it is a remote key, its node is
lightly loaded, and no lightly loaded remote node has a smaller id. -/
theorem find?_remote_some {Req : Type} (nodes : List (Int × Node Req))
    (l r : Int) (p : Node Req → Bool)
    (h : (remoteIds nodes l).find? (testAt nodes p) = some r) :
    r ≠ l ∧ (∃ n, find nodes r = some n ∧ p n = true) ∧
      ∀ id n, id ≠ l → find nodes id = some n → p n = true → r ≤ id := by
  have hmem := List.mem_of_find?_eq_some h
  have hp := List.find?_some h
  refine ⟨((mem_remoteIds nodes l r).mp hmem).2, (testAt_eq_true_iff nodes p r).mp hp, ?_⟩
  intro id n hne hn hpn
  exact find?_sorted_le _ _ (remoteIds_sorted nodes l) r h id
    ((mem_remoteIds nodes l id).mpr ⟨mem_of_find_eq_some nodes id n hn, hne⟩)
    ((testAt_eq_true_iff nodes p id).mpr ⟨n, hn, hpn⟩)

theorem find?_remote_exists {Req : Type} (nodes : List (Int × Node Req)) (l : Int)
    (p : Node Req → Bool) (hex : ∃ id n, id ≠ l ∧ find nodes id = some n ∧ p n = true) :
    ∃ r, (remoteIds nodes l).find? (testAt nodes p) = some r := by
  cases h : (remoteIds nodes l).find? (testAt nodes p) with
  | some r => exact ⟨r, rfl⟩
  | none =>
    obtain ⟨id, n, hne, hn, hp⟩ := hex
    rw [(find?_remote_eq_none_iff nodes p l).mp h id n hne hn] at hp
    exact absurd hp (by simp)

/-- When the local node does not take the fast path, the result of the policy is a remote
key, the sentinel written on line 116, or the fallback candidate. -/
theorem NewHybridPolicy_slow {Req : Type} (req : Req) (l : Int) (nodes : List (Int × Node Req))
    (thr : ℚ) (fs ra : Bool) (d : ℚ) (ln : Node Req) (hl : find nodes l = some ln)
    (hslow : ¬ (fs = false ∧ lightlyLoaded req thr ln = true)) :
    (∃ r, NewHybridPolicy req l nodes thr fs ra d = some r ∧ r ≠ l ∧
        ∃ n, find nodes r = some n ∧ n.IsFeasible req = true ∧
          n.IsAvailable req true = true) ∨
      (ra = true ∧ NewHybridPolicy req l nodes thr fs ra d = some (-1)) ∨
      (ra = false ∧ NewHybridPolicy req l nodes thr fs ra d =
        some (fallbackAfter req nodes (remoteIds nodes l)
          (if ln.IsFeasible req = true ∧ fs = false then l else -1))) := by
  rw [NewHybridPolicy_eq req l nodes thr fs ra d ln hl, if_neg hslow]
  cases hfind : (remoteIds nodes l).find? (testAt nodes (lightlyLoaded req thr)) with
  | some r =>
    left
    obtain ⟨hne, ⟨n, hn, hp⟩, _⟩ := find?_remote_some nodes l r _ hfind
    simp only [lightlyLoaded, Bool.and_eq_true] at hp
    exact ⟨r, rfl, hne, n, hn, hp.1.1, hp.1.2⟩
  | none =>
    by_cases hc : candidates req nodes thr l = []
    · simp only [hc, if_true]
      cases ra with
      | true => exact Or.inr (Or.inl ⟨rfl, by simp⟩)
      | false => exact Or.inr (Or.inr ⟨rfl, by simp⟩)
    · left
      simp only [hc, if_false]
      have hmem := weightedPick_mem (candidates req nodes thr l) d hc
      obtain ⟨hr, ht⟩ := (mem_candidates_snd req nodes thr l _).mp hmem
      obtain ⟨n, hn, hp⟩ := (testAt_eq_true_iff nodes _ _).mp ht
      simp only [heavilyLoaded, Bool.and_eq_true] at hp
      exact ⟨_, rfl, ((mem_remoteIds nodes l _).mp hr).2, n, hn, hp.1.1, hp.1.2⟩

/-! ## Properties of `NewHybridPolicy` -/

/-- C1: local fast path. If `force_spillback` is false and the local node is feasible,
available and has critical utilization strictly below `spread_threshold`, then
`NewHybridPolicy` returns `local_node_id`, whatever the other nodes, `require_available` and
the random draw are. -/
theorem local_fast_path {Req : Type} (req : Req) (l : Int) (nodes : List (Int × Node Req))
    (thr : ℚ) (ra : Bool) (d : ℚ) (ln : Node Req) (hl : find nodes l = some ln)
    (hfe : ln.IsFeasible req = true) (hav : ln.IsAvailable req true = true)
    (hu : ln.CalculateCriticalResourceUtilization < thr) :
    NewHybridPolicy req l nodes thr false ra d = some l := by
  rw [NewHybridPolicy_eq req l nodes thr false ra d ln hl]
  simp [lightlyLoaded, hfe, hav, hu]

theorem local_fast_path_witness :
    NewHybridPolicy () 0 [(0, mkNode true true (1/10)), (1, mkNode true true 0)] (1/2)
      false true (1/3) = some 0 :=
  local_fast_path () 0 [(0, mkNode true true (1/10)), (1, mkNode true true 0)] (1/2)
    true (1/3) (mkNode true true (1/10)) rfl rfl rfl (by decide!)

/-- C2 (counterexample): with local node id `-1`, `force_spillback = true` and
`require_available = true`, the value returned is `-1`, which is equal to `local_node_id`. -/
theorem spillback_returns_local_value :
    find [((-1 : Int), mkNode true true (1/10))] (-1) = some (mkNode true true (1/10)) ∧
    NewHybridPolicy () (-1) [(-1, mkNode true true (1/10))] (1/2) true true 0 = some (-1) :=
  ⟨rfl, by decide!⟩

/-- C2 (amended): with `force_spillback = true` and the local node in the map,
`NewHybridPolicy` returns a value that is either the sentinel `-1` or the id of a remote node
(a key of the map different from `local_node_id`); so the result is never `local_node_id`
unless `local_node_id` is itself `-1`. -/
theorem spillback_enforcement {Req : Type} (req : Req) (l : Int) (nodes : List (Int × Node Req))
    (thr : ℚ) (ra : Bool) (d : ℚ) (ln : Node Req) (hl : find nodes l = some ln) :
    ∃ r, NewHybridPolicy req l nodes thr true ra d = some r ∧
      (r = -1 ∨ (r ≠ l ∧ r ∈ nodes.map Prod.fst)) ∧ (l ≠ -1 → r ≠ l) := by
  have key : ∃ r, NewHybridPolicy req l nodes thr true ra d = some r ∧
      (r = -1 ∨ (r ≠ l ∧ r ∈ nodes.map Prod.fst)) := by
    rcases NewHybridPolicy_slow req l nodes thr true ra d ln hl (by simp) with
      ⟨r, hr, hne, n, hn, _, _⟩ | ⟨_, hr⟩ | ⟨_, hr⟩
    · exact ⟨r, hr, Or.inr ⟨hne, mem_of_find_eq_some nodes r n hn⟩⟩
    · exact ⟨-1, hr, Or.inl rfl⟩
    · refine ⟨_, hr, ?_⟩
      simp only [and_false, if_false, Bool.true_eq_false]
      rcases fallbackAfter_cases req nodes (remoteIds nodes l) (-1) with h | ⟨h, _⟩
      · exact Or.inl h
      · obtain ⟨h1, h2⟩ := (mem_remoteIds nodes l _).mp h
        exact Or.inr ⟨h2, h1⟩
  obtain ⟨r, hr, hcase⟩ := key
  refine ⟨r, hr, hcase, ?_⟩
  intro hl1 hrl
  rcases hcase with h | h
  · exact hl1 (hrl ▸ h)
  · exact h.1 hrl

theorem spillback_enforcement_witness :
    ∃ r, NewHybridPolicy () 0 [(0, mkNode true true (1/10)), (1, mkNode true true 0)] (1/2)
        true false 0 = some r ∧
      (r = -1 ∨ (r ≠ 0 ∧
        r ∈ ([(0, mkNode true true (1/10)), (1, mkNode true true 0)].map Prod.fst))) ∧
      ((0 : Int) ≠ -1 → r ≠ 0) :=
  spillback_enforcement () 0 [(0, mkNode true true (1/10)), (1, mkNode true true 0)] (1/2)
    false 0 (mkNode true true (1/10)) rfl

/-- C3: feasibility necessity. With the local node in the map, `NewHybridPolicy` returns a
value, and if that value is not the sentinel `-1` then it is a key of the map whose node
reports `IsFeasible(request) = true`. -/
theorem feasibility_necessity {Req : Type} (req : Req) (l : Int) (nodes : List (Int × Node Req))
    (thr : ℚ) (fs ra : Bool) (d : ℚ) (ln : Node Req) (hl : find nodes l = some ln) :
    ∃ r, NewHybridPolicy req l nodes thr fs ra d = some r ∧
      (r ≠ -1 → ∃ n, find nodes r = some n ∧ n.IsFeasible req = true) := by
  by_cases hfast : fs = false ∧ lightlyLoaded req thr ln = true
  · refine ⟨l, ?_, fun _ => ⟨ln, hl, ?_⟩⟩
    · rw [NewHybridPolicy_eq req l nodes thr fs ra d ln hl, if_pos hfast]
    · have := hfast.2
      simp only [lightlyLoaded, Bool.and_eq_true] at this
      exact this.1.1
  · rcases NewHybridPolicy_slow req l nodes thr fs ra d ln hl hfast with
      ⟨r, hr, _, n, hn, hfe, _⟩ | ⟨_, hr⟩ | ⟨_, hr⟩
    · exact ⟨r, hr, fun _ => ⟨n, hn, hfe⟩⟩
    · exact ⟨-1, hr, fun h => absurd rfl h⟩
    · refine ⟨_, hr, fun hne => ?_⟩
      rcases fallbackAfter_cases req nodes (remoteIds nodes l)
        (if ln.IsFeasible req = true ∧ fs = false then l else -1) with h | ⟨_, h⟩
      · rw [h] at hne ⊢
        by_cases hc : ln.IsFeasible req = true ∧ fs = false
        · rw [if_pos hc]
          exact ⟨ln, hl, hc.1⟩
        · rw [if_neg hc] at hne
          exact absurd rfl hne
      · exact (testAt_eq_true_iff nodes _ _).mp h

theorem feasibility_necessity_witness :
    ∃ r, NewHybridPolicy () 0 [(0, mkNode true false 1), (1, mkNode false false 1)] (1/2)
        false false 0 = some r ∧
      (r ≠ -1 → ∃ n, find [(0, mkNode true false 1), (1, mkNode false false 1)] r = some n ∧
        n.IsFeasible () = true) :=
  feasibility_necessity () 0 [(0, mkNode true false 1), (1, mkNode false false 1)] (1/2)
    false false 0 (mkNode true false 1) rfl

/-- C4 (counterexample): with `require_available = false` and a single, infeasible node the
policy returns the sentinel `-1`. -/
theorem sentinel_without_require_available :
    NewHybridPolicy () 0 [(0, mkNode false false 1)] (1/2) false false 0 = some (-1) := by
  decide!

/-- C4 (amended): when `-1` is not a node id and the local node is in the map,
`NewHybridPolicy` returns the sentinel `-1` if and only if the local node does not take the
fast path, no remote node is feasible and available, and either `require_available` is true
or there is no fallback candidate (no remote node is feasible, and the local node is
infeasible or `force_spillback` is true). -/
theorem no_node_iff {Req : Type} (req : Req) (l : Int) (nodes : List (Int × Node Req))
    (thr : ℚ) (fs ra : Bool) (d : ℚ) (ln : Node Req) (hl : find nodes l = some ln)
    (hkeys : (-1 : Int) ∉ nodes.map Prod.fst) :
    NewHybridPolicy req l nodes thr fs ra d = some (-1) ↔
      (¬ (fs = false ∧ lightlyLoaded req thr ln = true)) ∧
      (∀ id n, id ≠ l → find nodes id = some n →
        ¬ (n.IsFeasible req = true ∧ n.IsAvailable req true = true)) ∧
      (ra = true ∨
        ((ln.IsFeasible req = false ∨ fs = true) ∧
          ∀ id n, id ≠ l → find nodes id = some n → n.IsFeasible req = false)) := by
  have hl1 : l ≠ -1 := fun h => hkeys (h ▸ mem_of_find_eq_some nodes l ln hl)
  have hkey_ne : ∀ r n, find nodes r = some n → r ≠ -1 :=
    fun r n hn h => hkeys (h ▸ mem_of_find_eq_some nodes r n hn)
  have hrem : (-1 : Int) ∉ remoteIds nodes l :=
    fun h => hkeys ((mem_remoteIds nodes l _).mp h).1
  by_cases hfast : fs = false ∧ lightlyLoaded req thr ln = true
  · rw [NewHybridPolicy_eq req l nodes thr fs ra d ln hl, if_pos hfast]
    constructor
    · intro h
      exact absurd (Option.some.inj h) hl1
    · intro h
      exact absurd hfast h.1
  · constructor
    · intro hres
      refine ⟨hfast, ?_⟩
      rcases NewHybridPolicy_slow req l nodes thr fs ra d ln hl hfast with
        ⟨r, hr, _, n, hn, _, _⟩ | ⟨hra, _⟩ | ⟨hra, hr⟩
      · rw [hres] at hr
        exact absurd (Option.some.inj hr).symm (hkey_ne r n hn)
      · rw [NewHybridPolicy_eq req l nodes thr fs ra d ln hl, if_neg hfast] at hres
        cases hfind : (remoteIds nodes l).find? (testAt nodes (lightlyLoaded req thr)) with
        | some r =>
          rw [hfind] at hres
          obtain ⟨_, ⟨n, hn, _⟩, _⟩ := find?_remote_some nodes l r _ hfind
          exact absurd (Option.some.inj hres) (hkey_ne r n hn)
        | none =>
          rw [hfind] at hres
          by_cases hc : candidates req nodes thr l = []
          · refine ⟨?_, Or.inl hra⟩
            intro id n hne hn ⟨hfe, hav⟩
            have h1 := (find?_remote_eq_none_iff nodes _ l).mp hfind id n hne hn
            have h2 := (candidates_eq_nil_iff req nodes thr l).mp hc id n hne hn
            simp [lightlyLoaded, heavilyLoaded, hfe, hav] at h1 h2
            exact absurd h2 (not_lt.mpr h1)
          · simp only [hc, if_false] at hres
            have hmem := weightedPick_mem (candidates req nodes thr l) d hc
            obtain ⟨hr, _⟩ := (mem_candidates_snd req nodes thr l _).mp hmem
            rw [Option.some.inj hres] at hr
            exact absurd hr hrem
      · have hres2 := hres
        rw [NewHybridPolicy_eq req l nodes thr fs ra d ln hl, if_neg hfast] at hres
        cases hfind : (remoteIds nodes l).find? (testAt nodes (lightlyLoaded req thr)) with
        | some r =>
          rw [hfind] at hres
          obtain ⟨_, ⟨n, hn, _⟩, _⟩ := find?_remote_some nodes l r _ hfind
          exact absurd (Option.some.inj hres) (hkey_ne r n hn)
        | none =>
          rw [hfind] at hres
          by_cases hc : candidates req nodes thr l = []
          · have hfb : fallbackAfter req nodes (remoteIds nodes l)
                (if ln.IsFeasible req = true ∧ fs = false then l else -1) = -1 := by
              rw [hres2] at hr
              exact (Option.some.inj hr).symm
            have hseed : ¬ (ln.IsFeasible req = true ∧ fs = false) := by
              intro hs
              rw [if_pos hs, fallbackAfter_of_ne req nodes _ l hl1] at hfb
              exact hl1 hfb
            rw [if_neg hseed, fallbackAfter_neg_one req nodes _ hrem] at hfb
            have hnone : (remoteIds nodes l).find? (testAt nodes (fun n => n.IsFeasible req))
                = none := by
              cases hf : (remoteIds nodes l).find? (testAt nodes (fun n => n.IsFeasible req))
                with
              | none => rfl
              | some r =>
                rw [hf] at hfb
                simp only [Option.getD_some] at hfb
                exact absurd (hfb ▸ List.mem_of_find?_eq_some hf) hrem
            have hall := (find?_remote_eq_none_iff nodes _ l).mp hnone
            refine ⟨?_, Or.inr ⟨?_, hall⟩⟩
            · intro id n hne hn ⟨hfe, _⟩
              rw [hall id n hne hn] at hfe
              exact absurd hfe (by simp)
            · cases hfe : ln.IsFeasible req with
              | false => exact Or.inl rfl
              | true =>
                cases hfs : fs with
                | true => exact Or.inr rfl
                | false => exact absurd ⟨hfe, hfs⟩ hseed
          · simp only [hc, if_false] at hres
            have hmem := weightedPick_mem (candidates req nodes thr l) d hc
            obtain ⟨hr, _⟩ := (mem_candidates_snd req nodes thr l _).mp hmem
            rw [Option.some.inj hres] at hr
            exact absurd hr hrem
    · rintro ⟨_, hnoav, hcase⟩
      rw [NewHybridPolicy_eq req l nodes thr fs ra d ln hl, if_neg hfast]
      have hfind : (remoteIds nodes l).find? (testAt nodes (lightlyLoaded req thr)) = none := by
        rw [find?_remote_eq_none_iff]
        intro id n hne hn
        rw [Bool.eq_false_iff]
        intro hp
        simp only [lightlyLoaded, Bool.and_eq_true] at hp
        exact hnoav id n hne hn hp.1
      have hc : candidates req nodes thr l = [] := by
        rw [candidates_eq_nil_iff]
        intro id n hne hn
        rw [Bool.eq_false_iff]
        intro hp
        simp only [heavilyLoaded, Bool.and_eq_true] at hp
        exact hnoav id n hne hn hp.1
      rw [hfind]
      simp only [hc, if_true]
      rcases hcase with hra | ⟨hseed, hall⟩
      · simp [hra]
      · have hs : ¬ (ln.IsFeasible req = true ∧ fs = false) := by
          rintro ⟨h1, h2⟩
          rcases hseed with h | h
          · rw [h] at h1
            exact absurd h1 (by simp)
          · rw [h] at h2
            exact absurd h2 (by simp)
        rw [if_neg hs, fallbackAfter_neg_one req nodes _ hrem,
          (find?_remote_eq_none_iff nodes _ l).mpr hall]
        cases ra <;> simp

theorem no_node_iff_witness :
    NewHybridPolicy () 0 [(0, mkNode true false 1), (1, mkNode true false 1)] (1/2)
        false true 0 = some (-1) ↔
      (¬ ((false : Bool) = false ∧ lightlyLoaded () (1/2) (mkNode true false 1) = true)) ∧
      (∀ id n, id ≠ 0 →
        find [(0, mkNode true false 1), (1, mkNode true false 1)] id = some n →
        ¬ (n.IsFeasible () = true ∧ n.IsAvailable () true = true)) ∧
      ((true : Bool) = true ∨
        (((mkNode true false 1).IsFeasible () = false ∨ (false : Bool) = true) ∧
          ∀ id n, id ≠ 0 →
            find [(0, mkNode true false 1), (1, mkNode true false 1)] id = some n →
            n.IsFeasible () = false)) :=
  no_node_iff () 0 [(0, mkNode true false 1), (1, mkNode true false 1)] (1/2)
    false true 0 (mkNode true false 1) rfl (by decide)

/-! ## Independence of the storage order -/

theorem testAt_congr {Req : Type} {nodes nodes2 : List (Int × Node Req)}
    (h : ∀ id, find nodes id = find nodes2 id) (p : Node Req → Bool) :
    testAt nodes p = testAt nodes2 p := by
  funext id
  simp only [testAt, h id]

theorem weightAt_congr {Req : Type} {nodes nodes2 : List (Int × Node Req)}
    (h : ∀ id, find nodes id = find nodes2 id) : weightAt nodes = weightAt nodes2 := by
  funext id
  simp only [weightAt, h id]

theorem fallbackAfter_congr {Req : Type} (req : Req) {nodes nodes2 : List (Int × Node Req)}
    (h : ∀ id, find nodes id = find nodes2 id) (ids : List Int) (f : Int) :
    fallbackAfter req nodes ids f = fallbackAfter req nodes2 ids f := by
  induction ids generalizing f with
  | nil => rfl
  | cons id rest ih =>
    simp only [fallbackAfter, testAt_congr h, ih]

theorem NewHybridPolicy_perm {Req : Type} (req : Req) (l : Int)
    {nodes nodes2 : List (Int × Node Req)} (thr : ℚ) (fs ra : Bool) (d : ℚ)
    (hp : nodes.Perm nodes2) (hnd : (nodes.map Prod.fst).Nodup) :
    NewHybridPolicy req l nodes thr fs ra d = NewHybridPolicy req l nodes2 thr fs ra d := by
  have hfind : ∀ id, find nodes id = find nodes2 id := find_perm hp hnd
  cases hl : find nodes l with
  | none =>
    have hl2 : find nodes2 l = none := by rw [← hfind l, hl]
    simp [NewHybridPolicy, hl, hl2]
  | some ln =>
    have hl2 : find nodes2 l = some ln := by rw [← hfind l, hl]
    rw [NewHybridPolicy_eq req l nodes thr fs ra d ln hl,
      NewHybridPolicy_eq req l nodes2 thr fs ra d ln hl2]
    simp only [candidates, remoteIds_perm hp l, testAt_congr hfind, weightAt_congr hfind,
      fallbackAfter_congr req hfind]

/-- When the local node does not take the fast path and some remote node is lightly loaded
(feasible, available, utilization below the threshold), the policy returns the smallest id
among the lightly loaded remote nodes. -/
theorem greedy_remote {Req : Type} (req : Req) (l : Int) (nodes : List (Int × Node Req))
    (thr : ℚ) (fs ra : Bool) (d : ℚ) (ln : Node Req) (hl : find nodes l = some ln)
    (hslow : ¬ (fs = false ∧ lightlyLoaded req thr ln = true))
    (hex : ∃ id n, id ≠ l ∧ find nodes id = some n ∧ lightlyLoaded req thr n = true) :
    ∃ r n, NewHybridPolicy req l nodes thr fs ra d = some r ∧ r ≠ l ∧
      find nodes r = some n ∧ lightlyLoaded req thr n = true ∧
      ∀ id n2, id ≠ l → find nodes id = some n2 → lightlyLoaded req thr n2 = true → r ≤ id := by
  obtain ⟨r, hr⟩ := find?_remote_exists nodes l _ hex
  obtain ⟨hne, ⟨n, hn, hp⟩, hmin⟩ := find?_remote_some nodes l r _ hr
  refine ⟨r, n, ?_, hne, hn, hp, hmin⟩
  rw [NewHybridPolicy_eq req l nodes thr fs ra d ln hl, if_neg hslow, hr]

/-- C5 (counterexample): the local node `5` and the remote node `1` are both feasible,
available and below the threshold; the policy returns `5`, not the smallest such id `1`. -/
theorem greedy_not_smallest :
    lightlyLoaded () (1/2) (mkNode true true (1/10)) = true ∧
    find [((5 : Int), mkNode true true (1/10)), (1, mkNode true true (1/10))] 5
      = some (mkNode true true (1/10)) ∧
    find [((5 : Int), mkNode true true (1/10)), (1, mkNode true true (1/10))] 1
      = some (mkNode true true (1/10)) ∧
    NewHybridPolicy () 5 [(5, mkNode true true (1/10)), (1, mkNode true true (1/10))] (1/2)
      false false 0 = some 5 := by
  refine ⟨by decide!, rfl, rfl, by decide!⟩

/-- C5 (amended): if the local node takes the fast path (`force_spillback = false`, local
node feasible, available and below the threshold) the result is the local id; otherwise, if
some remote node is feasible, available and below the threshold, the result is the smallest
id among those remote nodes; and the result does not depend on the storage order of the
map. -/
theorem greedy_determinism {Req : Type} (req : Req) (l : Int) (nodes : List (Int × Node Req))
    (thr : ℚ) (fs ra : Bool) (d : ℚ) (ln : Node Req) (hl : find nodes l = some ln)
    (hnd : (nodes.map Prod.fst).Nodup) :
    ((fs = false ∧ lightlyLoaded req thr ln = true) →
      NewHybridPolicy req l nodes thr fs ra d = some l) ∧
    (¬ (fs = false ∧ lightlyLoaded req thr ln = true) →
      (∃ id n, id ≠ l ∧ find nodes id = some n ∧ lightlyLoaded req thr n = true) →
      ∃ r n, NewHybridPolicy req l nodes thr fs ra d = some r ∧ r ≠ l ∧
        find nodes r = some n ∧ lightlyLoaded req thr n = true ∧
        ∀ id n2, id ≠ l → find nodes id = some n2 → lightlyLoaded req thr n2 = true →
          r ≤ id) ∧
    (∀ nodes2 : List (Int × Node Req), nodes.Perm nodes2 →
      NewHybridPolicy req l nodes2 thr fs ra d = NewHybridPolicy req l nodes thr fs ra d) := by
  refine ⟨?_, ?_, ?_⟩
  · intro hfast
    rw [NewHybridPolicy_eq req l nodes thr fs ra d ln hl, if_pos hfast]
  · intro hslow hex
    exact greedy_remote req l nodes thr fs ra d ln hl hslow hex
  · intro nodes2 hp
    exact (NewHybridPolicy_perm req l thr fs ra d hp hnd).symm

theorem greedy_determinism_witness :
    ((((false : Bool) = false ∧ lightlyLoaded () (1/2) (mkNode true true (9/10)) = true) →
      NewHybridPolicy () 0 exGreedy (1/2) false false 0 = some 0) ∧
    (¬ ((false : Bool) = false ∧ lightlyLoaded () (1/2) (mkNode true true (9/10)) = true) →
      (∃ id n, id ≠ 0 ∧ find exGreedy id = some n ∧ lightlyLoaded () (1/2) n = true) →
      ∃ r n, NewHybridPolicy () 0 exGreedy (1/2) false false 0 = some r ∧ r ≠ 0 ∧
        find exGreedy r = some n ∧ lightlyLoaded () (1/2) n = true ∧
        ∀ id n2, id ≠ 0 → find exGreedy id = some n2 → lightlyLoaded () (1/2) n2 = true →
          r ≤ id) ∧
    (∀ nodes2 : List (Int × Node Unit), exGreedy.Perm nodes2 →
      NewHybridPolicy () 0 nodes2 (1/2) false false 0 =
        NewHybridPolicy () 0 exGreedy (1/2) false false 0)) ∧
    NewHybridPolicy () 0 exGreedy (1/2) false false 0 = some 1 :=
  ⟨greedy_determinism () 0 exGreedy (1/2) false false 0 (mkNode true true (9/10)) rfl
    (by decide), by decide!⟩

/-- C6 (counterexample): `require_available = false`, no node is available and the (only)
node `0` is feasible, but with `force_spillback = true` the policy returns the sentinel `-1`
and not the first feasible node `0`. -/
theorem fallback_not_first_feasible :
    find [((0 : Int), mkNode true false 1)] 0 = some (mkNode true false 1) ∧
    (mkNode true false 1).IsFeasible () = true ∧
    (GetNodeInfo (mkNode true false 1) ()).is_available = false ∧
    NewHybridPolicy () 0 [(0, mkNode true false 1)] (1/2) true false 0 = some (-1) := by
  refine ⟨rfl, rfl, by decide!, by decide!⟩

/-- C6 (amended): let `-1` not be a node id, `require_available = false`, and let no node of
the map be available. If the local node is feasible and `force_spillback = false`, the policy
returns the local id. Otherwise it returns the smallest id among the feasible remote nodes
when there is one, and the sentinel `-1` when no remote node is feasible. -/
theorem fallback_without_require_available {Req : Type} (req : Req) (l : Int)
    (nodes : List (Int × Node Req)) (thr : ℚ) (fs : Bool) (d : ℚ) (ln : Node Req)
    (hl : find nodes l = some ln) (hkeys : (-1 : Int) ∉ nodes.map Prod.fst)
    (hna : ∀ id n, find nodes id = some n → (GetNodeInfo n req).is_available = false) :
    ((ln.IsFeasible req = true ∧ fs = false) →
      NewHybridPolicy req l nodes thr fs false d = some l) ∧
    (¬ (ln.IsFeasible req = true ∧ fs = false) →
      ∀ r n, r ≠ l → find nodes r = some n → n.IsFeasible req = true →
        (∀ id n2, id ≠ l → find nodes id = some n2 → n2.IsFeasible req = true → r ≤ id) →
        NewHybridPolicy req l nodes thr fs false d = some r) ∧
    (¬ (ln.IsFeasible req = true ∧ fs = false) →
      (∀ id n, id ≠ l → find nodes id = some n → n.IsFeasible req = false) →
      NewHybridPolicy req l nodes thr fs false d = some (-1)) := by
  have hl1 : l ≠ -1 := fun h => hkeys (h ▸ mem_of_find_eq_some nodes l ln hl)
  have hrem : (-1 : Int) ∉ remoteIds nodes l :=
    fun h => hkeys ((mem_remoteIds nodes l _).mp h).1
  have hnav : ∀ id n, find nodes id = some n →
      ¬ (n.IsFeasible req = true ∧ n.IsAvailable req true = true) := by
    intro id n hn ⟨hfe, hav⟩
    have := hna id n hn
    simp [GetNodeInfo, hfe, hav] at this
  have hslow : ¬ (fs = false ∧ lightlyLoaded req thr ln = true) := by
    rintro ⟨_, hp⟩
    simp only [lightlyLoaded, Bool.and_eq_true] at hp
    exact hnav l ln hl hp.1
  have hfind : (remoteIds nodes l).find? (testAt nodes (lightlyLoaded req thr)) = none := by
    rw [find?_remote_eq_none_iff]
    intro id n _ hn
    rw [Bool.eq_false_iff]
    intro hp
    simp only [lightlyLoaded, Bool.and_eq_true] at hp
    exact hnav id n hn hp.1
  have hc : candidates req nodes thr l = [] := by
    rw [candidates_eq_nil_iff]
    intro id n _ hn
    rw [Bool.eq_false_iff]
    intro hp
    simp only [heavilyLoaded, Bool.and_eq_true] at hp
    exact hnav id n hn hp.1
  have heq : NewHybridPolicy req l nodes thr fs false d =
      some (fallbackAfter req nodes (remoteIds nodes l)
        (if ln.IsFeasible req = true ∧ fs = false then l else -1)) := by
    rw [NewHybridPolicy_eq req l nodes thr fs false d ln hl, if_neg hslow, hfind]
    simp [hc]
  refine ⟨?_, ?_, ?_⟩
  · intro hs
    rw [heq, if_pos hs, fallbackAfter_of_ne req nodes _ l hl1]
  · intro hs r n hne hn hfe hmin
    rw [heq, if_neg hs, fallbackAfter_neg_one req nodes _ hrem]
    obtain ⟨r2, hr2⟩ := find?_remote_exists nodes l (fun n => n.IsFeasible req)
      ⟨r, n, hne, hn, hfe⟩
    obtain ⟨hne2, ⟨n2, hn2, hfe2⟩, hmin2⟩ := find?_remote_some nodes l r2 _ hr2
    rw [hr2]
    simp only [Option.getD_some]
    exact congrArg some (le_antisymm (hmin2 r n hne hn hfe) (hmin r2 n2 hne2 hn2 hfe2))
  · intro hs hall
    rw [heq, if_neg hs, fallbackAfter_neg_one req nodes _ hrem,
      (find?_remote_eq_none_iff nodes _ l).mpr hall]
    rfl

theorem fallback_without_require_available_witness :
    ((((mkNode false false 1).IsFeasible () = true ∧ (false : Bool) = false) →
      NewHybridPolicy () 0 exFallback (1/2) false false 0 = some 0) ∧
    (¬ ((mkNode false false 1).IsFeasible () = true ∧ (false : Bool) = false) →
      ∀ r n, r ≠ 0 → find exFallback r = some n → n.IsFeasible () = true →
        (∀ id n2, id ≠ 0 → find exFallback id = some n2 → n2.IsFeasible () = true → r ≤ id) →
        NewHybridPolicy () 0 exFallback (1/2) false false 0 = some r) ∧
    (¬ ((mkNode false false 1).IsFeasible () = true ∧ (false : Bool) = false) →
      (∀ id n, id ≠ 0 → find exFallback id = some n → n.IsFeasible () = false) →
      NewHybridPolicy () 0 exFallback (1/2) false false 0 = some (-1))) ∧
    NewHybridPolicy () 0 exFallback (1/2) false false 0 = some 2 :=
  ⟨fallback_without_require_available () 0 exFallback (1/2) false 0 (mkNode false false 1)
    rfl (by decide) (by
      intro id n hn
      simp only [exFallback, find] at hn
      split at hn
      · cases hn; decide!
      · split at hn
        · cases hn; decide!
        · split at hn
          · cases hn; decide!
          · cases hn), by decide!⟩

/-! ## Scenario C and the weighted draw -/

theorem scenarioC_policy (ra : Bool) (d : ℚ) :
    NewHybridPolicy () 0 scenarioC (1/2) false ra d =
      some (weightedPick [(3/10, 1), (9/20, 2)] d) := by
  have hl : find scenarioC 0 = some (mkNode true true (6/10)) := rfl
  have h1 : ¬ ((false : Bool) = false ∧
      lightlyLoaded () (1/2) (mkNode true true (6/10)) = true) := by decide!
  have h2 : (remoteIds scenarioC 0).find? (testAt scenarioC (lightlyLoaded () (1/2))) = none := by
    decide!
  have h3 : candidates () scenarioC (1/2) 0 = [(3/10, 1), (9/20, 2)] := by decide!
  rw [NewHybridPolicy_eq () 0 scenarioC (1/2) false ra d _ hl, if_neg h1, h2]
  simp only [h3]
  rfl

theorem weightedPick_two_pos (d : ℚ) (hd : 0 < d) :
    weightedPick [(3/10, 1), (9/20, 2)] d = 2 := by
  have hs : cumulate (sortPairs [(3/10, 1), (9/20, 2)]) 0 = [(0, 1), (3/10, 2)] := by decide!
  unfold weightedPick
  simp only [hs]
  have h1 : pairLt ((0 : ℚ), (1 : Int)) (d, 0) := Or.inl hd
  by_cases h2 : pairLt ((3/10 : ℚ), (2 : Int)) (d, 0)
  · simp [lower_bound, lowerBoundLoop, h2, pickAt]
  · simp [lower_bound, lowerBoundLoop, h1, h2, pickAt]

theorem weightedPick_two_nonpos (d : ℚ) (hd : d ≤ 0) :
    weightedPick [(3/10, 1), (9/20, 2)] d = 1 := by
  have hs : cumulate (sortPairs [(3/10, 1), (9/20, 2)]) 0 = [(0, 1), (3/10, 2)] := by decide!
  unfold weightedPick
  simp only [hs]
  have h1 : ¬ pairLt ((0 : ℚ), (1 : Int)) (d, 0) := by
    rintro (h | ⟨_, h⟩)
    · exact absurd h (not_lt.mpr hd)
    · exact absurd (show (1 : Int) < 0 from h) (by decide)
  have h2 : ¬ pairLt ((3/10 : ℚ), (2 : Int)) (d, 0) := by
    rintro (h | ⟨_, h⟩)
    · exact absurd h (not_lt.mpr (le_trans hd (by norm_num)))
    · exact absurd (show (2 : Int) < 0 from h) (by decide)
  simp [lower_bound, lowerBoundLoop, h1, h2, pickAt]

theorem cumulate_ge (xs : List (ℚ × Int)) (s : ℚ) (hw : ∀ p ∈ xs, 0 ≤ p.1) :
    ∀ q ∈ cumulate xs s, s ≤ q.1 := by
  induction xs generalizing s with
  | nil =>
    intro q hq
    simp [cumulate] at hq
  | cons x rest ih =>
    obtain ⟨w, id⟩ := x
    intro q hq
    simp only [cumulate, List.mem_cons] at hq
    rcases hq with h | h
    · rw [h]
    · have hw0 : 0 ≤ w := hw (w, id) (List.mem_cons_self _ _)
      have := ih (s + w) (fun p hp => hw p (List.mem_cons_of_mem _ hp)) q h
      linarith

theorem sortPairs_of_sorted (c : List (ℚ × Int)) (hs : c.Sorted pairLe) : sortPairs c = c :=
  List.Sorted.insertionSort_eq hs

/-- On a sorted candidate list with at least two entries, every draw strictly between `0` and
the first weight makes the code return the second candidate, while the first candidate is the
one whose inclusive cumulative sum reaches the draw. -/
theorem weightedPick_second (w0 w1 : ℚ) (id0 id1 : Int) (rest : List (ℚ × Int)) (d : ℚ)
    (hs : ((w0, id0) :: (w1, id1) :: rest).Sorted pairLe) (hd0 : 0 < d) (hd1 : d < w0) :
    weightedPick ((w0, id0) :: (w1, id1) :: rest) d = id1 ∧
      specSample ((w0, id0) :: (w1, id1) :: rest) 0 d = some id0 := by
  constructor
  · unfold weightedPick
    rw [sortPairs_of_sorted _ hs]
    have hw0 : 0 < w0 := lt_trans hd0 hd1
    have hweights : ∀ p ∈ (w1, id1) :: rest, 0 ≤ p.1 := by
      intro p hp
      have hle : pairLe (w0, id0) p := (List.sorted_cons.mp hs).1 p hp
      rcases hle with h | ⟨h, _⟩
      · exact le_of_lt (lt_trans hw0 h)
      · exact le_of_lt (h ▸ hw0)
    have hxs : cumulate ((w0, id0) :: (w1, id1) :: rest) 0 =
        (0, id0) :: cumulate ((w1, id1) :: rest) (0 + w0) := rfl
    have htail : ∀ q ∈ cumulate ((w1, id1) :: rest) (0 + w0), ¬ pairLt q (d, 0) := by
      intro q hq
      have hge := cumulate_ge ((w1, id1) :: rest) (0 + w0) hweights q hq
      rw [zero_add] at hge
      rintro (h | ⟨h, _⟩)
      · exact absurd (lt_of_le_of_lt hge h) (not_lt.mpr hd1.le)
      · have hq1 : q.1 = d := h
        rw [hq1] at hge
        exact absurd hge (not_le.mpr hd1)
    have hlb : lower_bound (cumulate ((w0, id0) :: (w1, id1) :: rest) 0) (d, 0) = 1 := by
      rw [hxs]
      unfold lower_bound
      apply lowerBoundLoop_partitioned _ _ 1 _ 0 _ (le_refl _) (by omega)
      · simp only [List.length_cons]
        omega
      · omega
      · intro i x _ hi hx
        have hi0 : i = 0 := by omega
        subst hi0
        simp only [List.getElem?_cons_zero, Option.some.injEq] at hx
        rw [← hx]
        exact Or.inl hd0
      · intro i x hi _ hx
        obtain ⟨j, rfl⟩ : ∃ j, i = j + 1 := ⟨i - 1, by omega⟩
        rw [List.getElem?_cons_succ] at hx
        exact htail x (List.getElem?_mem hx)
    show pickAt (cumulate ((w0, id0) :: (w1, id1) :: rest) 0)
      (lower_bound (cumulate ((w0, id0) :: (w1, id1) :: rest) 0) (d, 0)) = id1
    rw [hlb, hxs]
    simp [pickAt, cumulate]
  · simp [specSample, hd1.le]

/-- C7 (code at the failing input): the candidates `(0.3, 1)` and `(0.45, 2)` are in sorted
order with total weight `0.75`. For the draw `0.2` the first candidate whose inclusive
cumulative sum is `>= 0.2` is node `1` (`0.3 >= 0.2`), but the code selects node `2`; in fact
the code selects node `2` for every positive draw, an interval of length `0.75`, not `0.45`,
and node `1` only for draws `<= 0`. In general, on any sorted list with at least two
candidates, a draw strictly between `0` and the first weight selects the second candidate,
not the first. -/
theorem weighted_sampling_shifted :
    sortPairs [(3/10, 1), (9/20, 2)] = [(3/10, 1), (9/20, 2)] ∧
    specSample [(3/10, 1), (9/20, 2)] 0 (1/5) = some 1 ∧
    weightedPick [(3/10, 1), (9/20, 2)] (1/5) = 2 ∧
    NewHybridPolicy () 0 scenarioC (1/2) false false (1/5) = some 2 ∧
    (∀ d : ℚ, 0 < d → weightedPick [(3/10, 1), (9/20, 2)] d = 2) ∧
    (∀ d : ℚ, weightedPick [(3/10, 1), (9/20, 2)] d = 1 → d ≤ 0) ∧
    (∀ (w0 w1 : ℚ) (id0 id1 : Int) (rest : List (ℚ × Int)) (d : ℚ),
      ((w0, id0) :: (w1, id1) :: rest).Sorted pairLe → 0 < d → d < w0 →
      weightedPick ((w0, id0) :: (w1, id1) :: rest) d = id1 ∧
        specSample ((w0, id0) :: (w1, id1) :: rest) 0 d = some id0) := by
  refine ⟨by decide!, by decide!, by decide!, by decide!, weightedPick_two_pos, ?_,
    weightedPick_second⟩
  intro d hd
  by_contra hcon
  rw [weightedPick_two_pos d (not_le.mp hcon)] at hd
  exact absurd hd (by decide)

/-- C8 (counterexample): in scenario C (`Local = 0`, `A = 1`, `B = 2`, threshold `0.5`,
`force_spillback = false`) no draw and no value of `require_available` makes the policy
return the local node. -/
theorem scenarioC_never_local :
    ¬ ∃ (ra : Bool) (d : ℚ), NewHybridPolicy () 0 scenarioC (1/2) false ra d = some 0 := by
  rintro ⟨ra, d, h⟩
  rw [scenarioC_policy] at h
  have hmem := weightedPick_mem [(3/10, 1), (9/20, 2)] d (by simp)
  rw [Option.some.inj h] at hmem
  revert hmem
  decide

/-- C8 (amended): in scenario C the local node misses the fast path and is not a weighted
candidate; the loop ends with exactly the remote nodes `A` and `B` as candidates, with
weights `0.3` and `0.45` (sum `0.75`); for every draw the policy returns `A` or `B`; each of
`A` and `B` is returned for some draw in `[0, 0.75)`; and the draws of `[0, 0.75)` that select
`B` have a larger measure than those that select `A`: the former contain an interval that is
longer than an interval containing all of the latter. -/
theorem scenarioC_candidates :
    walk () scenarioC (1/2) (remoteIds scenarioC 0) 0 [] =
      some (.done 0 [(3/10, 1), (9/20, 2)]) ∧
    (∀ (ra : Bool) (d : ℚ),
      NewHybridPolicy () 0 scenarioC (1/2) false ra d = some 1 ∨
      NewHybridPolicy () 0 scenarioC (1/2) false ra d = some 2) ∧
    (∀ ra : Bool, ∃ d : ℚ, 0 ≤ d ∧ d < 3/10 + 9/20 ∧
      NewHybridPolicy () 0 scenarioC (1/2) false ra d = some 1) ∧
    (∀ ra : Bool, ∃ d : ℚ, 0 ≤ d ∧ d < 3/10 + 9/20 ∧
      NewHybridPolicy () 0 scenarioC (1/2) false ra d = some 2) ∧
    (∀ ra : Bool, ∃ loA hiA loB hiB : ℚ,
      (∀ d : ℚ, 0 ≤ d → d < 3/10 + 9/20 →
        NewHybridPolicy () 0 scenarioC (1/2) false ra d = some 1 → loA ≤ d ∧ d ≤ hiA) ∧
      (∀ d : ℚ, loB < d → d < hiB →
        0 ≤ d ∧ d < 3/10 + 9/20 ∧
          NewHybridPolicy () 0 scenarioC (1/2) false ra d = some 2) ∧
      hiA - loA < hiB - loB) := by
  refine ⟨by decide!, ?_, ?_, ?_, ?_⟩
  · intro ra d
    rw [scenarioC_policy]
    have hmem := weightedPick_mem [(3/10, 1), (9/20, 2)] d (by simp)
    simp only [List.map_cons, List.map_nil, List.mem_cons, List.mem_singleton,
      List.not_mem_nil, or_false] at hmem
    rcases hmem with h | h
    · exact Or.inl (congrArg some h)
    · exact Or.inr (congrArg some h)
  · intro ra
    refine ⟨0, le_refl 0, by norm_num, ?_⟩
    rw [scenarioC_policy, weightedPick_two_nonpos 0 (le_refl 0)]
  · intro ra
    refine ⟨1/5, by norm_num, by norm_num, ?_⟩
    rw [scenarioC_policy, weightedPick_two_pos (1/5) (by norm_num)]
  · intro ra
    refine ⟨0, 0, 0, 3/10 + 9/20, ?_, ?_, by norm_num⟩
    · intro d hd0 _ hpick
      rw [scenarioC_policy] at hpick
      have hd : d ≤ 0 := by
        by_contra hcon
        rw [weightedPick_two_pos d (not_le.mp hcon)] at hpick
        exact absurd (Option.some.inj hpick) (by decide)
      exact ⟨hd0, hd⟩
    · intro d hlo hhi
      refine ⟨le_of_lt hlo, hhi, ?_⟩
      rw [scenarioC_policy, weightedPick_two_pos d hlo]

/-- C9 (code at the failing input): the remote node `1` reports
`IsAvailable(request, false) = false`, yet `GetNodeInfo` (which always passes `true`) marks
it available and the policy returns it through the greedy pick. -/
theorem remote_backpressure_ignored :
    find exBackpressure 1 = some backpressured ∧
    backpressured.IsAvailable () false = false ∧
    (GetNodeInfo backpressured ()).is_available = true ∧
    NewHybridPolicy () 0 exBackpressure (1/2) false true 0 = some 1 := by
  refine ⟨rfl, rfl, by decide!, by decide!⟩

/-- C10: storage-order independence. Two node maps with the same key/value contents (the
association lists are permutations of each other, keys being unique) give the same result of
`NewHybridPolicy` for the same request, local id, threshold, flags and draw. -/
theorem storage_order_independence {Req : Type} (req : Req) (l : Int)
    (nodes nodes2 : List (Int × Node Req)) (thr : ℚ) (fs ra : Bool) (d : ℚ)
    (hp : nodes.Perm nodes2) (hnd : (nodes.map Prod.fst).Nodup) :
    NewHybridPolicy req l nodes thr fs ra d = NewHybridPolicy req l nodes2 thr fs ra d :=
  NewHybridPolicy_perm req l thr fs ra d hp hnd

theorem storage_order_independence_witness :
    NewHybridPolicy () 0 exGreedy (1/2) false false 0 =
      NewHybridPolicy () 0 exGreedy.reverse (1/2) false false 0 :=
  storage_order_independence () 0 exGreedy exGreedy.reverse (1/2) false false 0
    (List.reverse_perm exGreedy).symm (by decide)

/-! ## The evaluator, membership and termination -/

/-- With the local node in the map the policy always returns a value. -/
theorem NewHybridPolicy_isSome {Req : Type} (req : Req) (l : Int) (nodes : List (Int × Node Req))
    (thr : ℚ) (fs ra : Bool) (d : ℚ) (ln : Node Req) (hl : find nodes l = some ln) :
    ∃ r, NewHybridPolicy req l nodes thr fs ra d = some r := by
  by_cases hfast : fs = false ∧ lightlyLoaded req thr ln = true
  · exact ⟨l, by rw [NewHybridPolicy_eq req l nodes thr fs ra d ln hl, if_pos hfast]⟩
  · rcases NewHybridPolicy_slow req l nodes thr fs ra d ln hl hfast with
      ⟨r, hr, _⟩ | ⟨_, hr⟩ | ⟨_, hr⟩
    · exact ⟨r, hr⟩
    · exact ⟨_, hr⟩
    · exact ⟨_, hr⟩

/-- The loop over the sorted remote ids never fails its lookup check. -/
theorem walk_remoteIds_isSome {Req : Type} (req : Req) (l : Int) (nodes : List (Int × Node Req))
    (thr : ℚ) (f : Int) (ut : List (ℚ × Int)) :
    ∃ res, walk req nodes thr (remoteIds nodes l) f ut = some res := by
  rw [walk_eq req nodes thr (remoteIds nodes l) f ut
    (fun id hid => ((mem_remoteIds nodes l id).mp hid).1)]
  cases (remoteIds nodes l).find? (testAt nodes (lightlyLoaded req thr)) with
  | some id => exact ⟨_, rfl⟩
  | none => exact ⟨_, rfl⟩

/-- C11: evaluator output. `GetNodeInfo` returns `{false, false, 1.0}` for an infeasible node,
`{true, false, 1.0}` for a feasible node that is not available, and
`{true, true, CalculateCriticalResourceUtilization()}` otherwise; hence `is_available` implies
`is_feasible`, and the utilization differs from the default `1.0` only for nodes that are
both feasible and available. -/
theorem GetNodeInfo_output {Req : Type} (node : Node Req) (req : Req) :
    (node.IsFeasible req = false → GetNodeInfo node req = ⟨false, false, 1⟩) ∧
    (node.IsFeasible req = true → node.IsAvailable req true = false →
      GetNodeInfo node req = ⟨true, false, 1⟩) ∧
    (node.IsFeasible req = true → node.IsAvailable req true = true →
      GetNodeInfo node req = ⟨true, true, node.CalculateCriticalResourceUtilization⟩) ∧
    ((GetNodeInfo node req).is_available = true → (GetNodeInfo node req).is_feasible = true) ∧
    ((GetNodeInfo node req).critical_resource_utilization ≠ 1 →
      (GetNodeInfo node req).is_feasible = true ∧ (GetNodeInfo node req).is_available = true ∧
        node.IsFeasible req = true ∧ node.IsAvailable req true = true) := by
  unfold GetNodeInfo
  cases hfe : node.IsFeasible req <;> cases hav : node.IsAvailable req true <;> simp

/-- C12: result membership. With the local node in the map, `NewHybridPolicy` returns a value
that is either the sentinel `-1` or a key of the input map. -/
theorem result_membership {Req : Type} (req : Req) (l : Int) (nodes : List (Int × Node Req))
    (thr : ℚ) (fs ra : Bool) (d : ℚ) (ln : Node Req) (hl : find nodes l = some ln) :
    ∃ r, NewHybridPolicy req l nodes thr fs ra d = some r ∧
      (r = -1 ∨ r ∈ nodes.map Prod.fst) := by
  have hlmem : l ∈ nodes.map Prod.fst := mem_of_find_eq_some nodes l ln hl
  by_cases hfast : fs = false ∧ lightlyLoaded req thr ln = true
  · exact ⟨l, by rw [NewHybridPolicy_eq req l nodes thr fs ra d ln hl, if_pos hfast],
      Or.inr hlmem⟩
  · rcases NewHybridPolicy_slow req l nodes thr fs ra d ln hl hfast with
      ⟨r, hr, _, n, hn, _, _⟩ | ⟨_, hr⟩ | ⟨_, hr⟩
    · exact ⟨r, hr, Or.inr (mem_of_find_eq_some nodes r n hn)⟩
    · exact ⟨-1, hr, Or.inl rfl⟩
    · refine ⟨_, hr, ?_⟩
      rcases fallbackAfter_cases req nodes (remoteIds nodes l)
        (if ln.IsFeasible req = true ∧ fs = false then l else -1) with h | ⟨h, _⟩
      · rw [h]
        by_cases hc : ln.IsFeasible req = true ∧ fs = false
        · rw [if_pos hc]
          exact Or.inr hlmem
        · rw [if_neg hc]
          exact Or.inl rfl
      · exact Or.inr ((mem_remoteIds nodes l _).mp h).1

theorem result_membership_witness :
    ∃ r, NewHybridPolicy () 0 scenarioC (1/2) false false (1/5) = some r ∧
      (r = -1 ∨ r ∈ scenarioC.map Prod.fst) :=
  result_membership () 0 scenarioC (1/2) false false (1/5) (mkNode true true (6/10)) rfl

/-- C13: failure exactly on the precondition. `NewHybridPolicy` fails its check (result
`none`) if and only if `local_node_id` is not a key of `nodes`; when it is a key the function
returns a value; and the lookup check inside the loop over the sorted remote ids never fails,
whatever the state of the loop variables. -/
theorem abort_iff_local_absent {Req : Type} (req : Req) (l : Int) (nodes : List (Int × Node Req))
    (thr : ℚ) (fs ra : Bool) (d : ℚ) :
    (NewHybridPolicy req l nodes thr fs ra d = none ↔ l ∉ nodes.map Prod.fst) ∧
    (l ∈ nodes.map Prod.fst → ∃ r, NewHybridPolicy req l nodes thr fs ra d = some r) ∧
    (∀ (f : Int) (ut : List (ℚ × Int)),
      ∃ res, walk req nodes thr (remoteIds nodes l) f ut = some res) := by
  refine ⟨⟨?_, ?_⟩, ?_, ?_⟩
  · intro hnone hmem
    obtain ⟨ln, hl⟩ := find_isSome_of_mem nodes l hmem
    obtain ⟨r, hr⟩ := NewHybridPolicy_isSome req l nodes thr fs ra d ln hl
    rw [hnone] at hr
    exact absurd hr (by simp)
  · intro hmem
    simp [NewHybridPolicy, find_eq_none_of_not_mem nodes l hmem]
  · intro hmem
    obtain ⟨ln, hl⟩ := find_isSome_of_mem nodes l hmem
    exact NewHybridPolicy_isSome req l nodes thr fs ra d ln hl
  · intro f ut
    exact walk_remoteIds_isSome req l nodes thr f ut

/-! ## Greedy pick, infeasible maps and the weighted branch -/

theorem fallbackAfter_of_infeasible {Req : Type} (req : Req) (nodes : List (Int × Node Req))
    (ids : List Int) (f : Int)
    (hinf : ∀ id n, find nodes id = some n → n.IsFeasible req = false) :
    fallbackAfter req nodes ids f = f := by
  rcases fallbackAfter_cases req nodes ids f with h | ⟨_, h⟩
  · exact h
  · obtain ⟨n, hn, hp⟩ := (testAt_eq_true_iff nodes _ _).mp h
    rw [hinf _ n hn] at hp
    exact absurd hp (by simp)

/-- When the loop ends without returning, the candidate list it leaves is `candidates` and no
remote node was lightly loaded. -/
theorem walk_done {Req : Type} (req : Req) (l : Int) (nodes : List (Int × Node Req)) (thr : ℚ)
    (f0 f : Int) (ut : List (ℚ × Int))
    (hw : walk req nodes thr (remoteIds nodes l) f0 [] = some (.done f ut)) :
    (remoteIds nodes l).find? (testAt nodes (lightlyLoaded req thr)) = none ∧
      ut = candidates req nodes thr l := by
  rw [walk_eq req nodes thr (remoteIds nodes l) f0 []
    (fun id hid => ((mem_remoteIds nodes l id).mp hid).1)] at hw
  cases hfind : (remoteIds nodes l).find? (testAt nodes (lightlyLoaded req thr)) with
  | some id =>
    rw [hfind] at hw
    simp at hw
  | none =>
    rw [hfind] at hw
    simp only [List.nil_append, Option.some.injEq, WalkResult.done.injEq] at hw
    exact ⟨rfl, hw.2.symm⟩

/-- C14 (code at the failing input): the local node `0` is at `0.9` and misses the fast path;
the remote node `1` is under backpressure (`IsAvailable(request, false) = false`), the remote
node `2` is feasible, available without ignoring backpressure and at `0.1`, so node `2` is
the smallest remote node that is feasible, available and below the threshold `0.5` when a
remote node is judged with the flag `false`. The code returns node `1` for every
`require_available` and draw. In Scenario A, where no node is under backpressure, the code
returns `B`. -/
theorem greedy_pick_backpressured :
    find exBackpressureGreedy 1 = some backpressured ∧
    backpressured.IsAvailable () false = false ∧
    find exBackpressureGreedy 2 = some (mkNode true true (1/10)) ∧
    (mkNode true true (1/10)).IsFeasible () = true ∧
    (mkNode true true (1/10)).IsAvailable () false = true ∧
    (mkNode true true (1/10)).CalculateCriticalResourceUtilization < 1/2 ∧
    (∀ id n, id ≠ 0 → find exBackpressureGreedy id = some n → n.IsFeasible () = true →
      n.IsAvailable () false = true → n.CalculateCriticalResourceUtilization < 1/2 →
      2 ≤ id) ∧
    (∀ (ra : Bool) (d : ℚ),
      NewHybridPolicy () 0 exBackpressureGreedy (1/2) false ra d = some 1) ∧
    (∀ (ra : Bool) (d : ℚ), NewHybridPolicy () 0 scenarioA (1/2) false ra d = some 1) := by
  refine ⟨rfl, rfl, rfl, rfl, rfl, by decide!, ?_, ?_, ?_⟩
  · intro id n hne hn _ hav _
    simp only [exBackpressureGreedy, find] at hn
    split at hn
    · rename_i h0
      exact absurd h0.symm hne
    · split at hn
      · cases hn
        exact absurd hav (by decide)
      · split at hn
        · rename_i h2
          exact le_of_eq h2
        · cases hn
  · intro ra d
    have hl0 : find exBackpressureGreedy 0 = some (mkNode true true (9/10)) := rfl
    have h1 : ¬ ((false : Bool) = false ∧
        lightlyLoaded () (1/2) (mkNode true true (9/10)) = true) := by decide!
    have h2 : (remoteIds exBackpressureGreedy 0).find?
        (testAt exBackpressureGreedy (lightlyLoaded () (1/2))) = some 1 := by decide!
    rw [NewHybridPolicy_eq () 0 exBackpressureGreedy (1/2) false ra d _ hl0, if_neg h1, h2]
  · intro ra d
    have hl0 : find scenarioA 0 = some (mkNode true true (9/10)) := rfl
    have h1 : ¬ ((false : Bool) = false ∧
        lightlyLoaded () (1/2) (mkNode true true (9/10)) = true) := by decide!
    have h2 : (remoteIds scenarioA 0).find? (testAt scenarioA (lightlyLoaded () (1/2)))
        = some 1 := by decide!
    rw [NewHybridPolicy_eq () 0 scenarioA (1/2) false ra d _ hl0, if_neg h1, h2]

/-- C15: all-infeasible gives the sentinel. If no node of the map (the local node included) is
feasible for the request, then `NewHybridPolicy` returns `-1` for every threshold,
`force_spillback`, `require_available` and draw; in Scenario B (three infeasible nodes,
`require_available = true`) the result is the sentinel. -/
theorem all_infeasible_sentinel {Req : Type} (req : Req) (l : Int)
    (nodes : List (Int × Node Req)) (thr : ℚ) (fs ra : Bool) (d : ℚ) (ln : Node Req)
    (hl : find nodes l = some ln)
    (hinf : ∀ id n, find nodes id = some n → n.IsFeasible req = false) :
    NewHybridPolicy req l nodes thr fs ra d = some (-1) := by
  have hlf : ln.IsFeasible req = false := hinf l ln hl
  have hslow : ¬ (fs = false ∧ lightlyLoaded req thr ln = true) := by
    rintro ⟨_, hp⟩
    simp [lightlyLoaded, hlf] at hp
  rcases NewHybridPolicy_slow req l nodes thr fs ra d ln hl hslow with
    ⟨r, _, _, n, hn, hfe, _⟩ | ⟨_, hr⟩ | ⟨_, hr⟩
  · rw [hinf r n hn] at hfe
    exact absurd hfe (by simp)
  · exact hr
  · rw [hr, fallbackAfter_of_infeasible req nodes _ _ hinf]
    simp [hlf]

theorem all_infeasible_sentinel_witness :
    NewHybridPolicy () 0 scenarioB (1/2) false true 0 = some (-1) :=
  all_infeasible_sentinel () 0 scenarioB (1/2) false true 0 (mkNode false false 1) rfl (by
    intro id n hn
    simp only [scenarioB, find] at hn
    split at hn
    · cases hn; rfl
    · split at hn
      · cases hn; rfl
      · split at hn
        · cases hn; rfl
        · cases hn)

/-- When the local node does not take the fast path and the loop over the remote nodes ends
with a non-empty list `ut_node_id`, the policy returns the id of an element of that list, and
the only element when there is exactly one. -/
theorem weighted_branch_member {Req : Type} (req : Req) (l : Int)
    (nodes : List (Int × Node Req)) (thr : ℚ) (fs ra : Bool) (d : ℚ) (ln : Node Req)
    (hl : find nodes l = some ln)
    (hslow : ¬ (fs = false ∧ lightlyLoaded req thr ln = true))
    (f0 f : Int) (ut : List (ℚ × Int))
    (hw : walk req nodes thr (remoteIds nodes l) f0 [] = some (.done f ut))
    (hne : ut ≠ []) :
    ∃ r, NewHybridPolicy req l nodes thr fs ra d = some r ∧ r ∈ ut.map Prod.snd ∧
      r ∈ nodes.map Prod.fst ∧ r ≠ l ∧ (∀ (w : ℚ) (id : Int), ut = [(w, id)] → r = id) := by
  obtain ⟨hfind, hut⟩ := walk_done req l nodes thr f0 f ut hw
  have hres : NewHybridPolicy req l nodes thr fs ra d = some (weightedPick ut d) := by
    rw [NewHybridPolicy_eq req l nodes thr fs ra d ln hl, if_neg hslow, hfind]
    rw [hut] at hne
    simp only [hne, if_false, hut]
  have hmem := weightedPick_mem ut d hne
  have hrem : weightedPick ut d ∈ remoteIds nodes l := by
    have h := hmem
    rw [hut] at h ⊢
    exact ((mem_candidates_snd req nodes thr l _).mp h).1
  refine ⟨_, hres, hmem, ((mem_remoteIds nodes l _).mp hrem).1,
    ((mem_remoteIds nodes l _).mp hrem).2, ?_⟩
  intro w id hsingle
  rw [hsingle] at hmem ⊢
  simpa using hmem

/-- C16 (code at the failing input): for every stored list and every search key the binary
search plus the clamp select an in-bounds element, and whenever the loop ends with a
non-empty candidate list the policy returns the id of one of the accumulated candidates (the
only one when there is exactly one), for every draw. But the accumulated candidates need not
be available as a remote node is judged: with an infeasible local node `0` and the remote
node `1` at `0.9` under backpressure (`IsAvailable(request, false) = false`), node `1` is
the single candidate and is returned for every draw. -/
theorem weighted_branch_backpressured :
    (∀ (xs : List (ℚ × Int)) (value : ℚ × Int), xs ≠ [] →
      lower_bound xs value ≤ xs.length ∧
      (if lower_bound xs value = xs.length then lower_bound xs value - 1
        else lower_bound xs value) < xs.length ∧
      pickAt xs (lower_bound xs value) ∈ xs.map Prod.snd) ∧
    (∀ (l : Int) (nodes : List (Int × Node Unit)) (thr : ℚ) (fs ra : Bool) (d : ℚ)
      (ln : Node Unit) (f0 f : Int) (ut : List (ℚ × Int)),
      find nodes l = some ln → ¬ (fs = false ∧ lightlyLoaded () thr ln = true) →
      walk () nodes thr (remoteIds nodes l) f0 [] = some (.done f ut) → ut ≠ [] →
      ∃ r, NewHybridPolicy () l nodes thr fs ra d = some r ∧ r ∈ ut.map Prod.snd ∧
        r ∈ nodes.map Prod.fst ∧ r ≠ l ∧ (∀ (w : ℚ) (id : Int), ut = [(w, id)] → r = id)) ∧
    find exBackpressureWeighted 1 = some backpressuredHeavy ∧
    backpressuredHeavy.IsAvailable () false = false ∧
    (∃ (f : Int) (w : ℚ),
      walk () exBackpressureWeighted (1/2) (remoteIds exBackpressureWeighted 0) (-1) [] =
        some (.done f [(w, 1)])) ∧
    (∀ (ra : Bool) (d : ℚ),
      NewHybridPolicy () 0 exBackpressureWeighted (1/2) false ra d = some 1) := by
  refine ⟨?_, ?_, rfl, rfl, ⟨1, 1/10, by decide!⟩, ?_⟩
  · intro xs value hne
    have hle := lower_bound_le xs value
    have hpos : 0 < xs.length := List.length_pos.mpr hne
    refine ⟨hle, ?_, pickAt_mem xs _ hle hne⟩
    split <;> omega
  · intro l nodes thr fs ra d ln f0 f ut hl hslow hw hne
    exact weighted_branch_member () l nodes thr fs ra d ln hl hslow f0 f ut hw hne
  · intro ra d
    have hl0 : find exBackpressureWeighted 0 = some (mkNode false false 1) := rfl
    obtain ⟨r, hr, _, _, _, hsingle⟩ := weighted_branch_member () 0 exBackpressureWeighted
      (1/2) false ra d (mkNode false false 1) hl0 (by decide) (-1) 1 [(1/10, 1)]
      (by decide!) (by simp)
    rw [hr, hsingle (1/10) 1 rfl]

/-! ## `require_available`, the fallback candidate and the entry point -/

/-- C17 (code at the failing input): the local node `0` is infeasible, the remote node `1` is
under backpressure and the remote node `2` is unavailable, so no remote node reports
`IsAvailable(request, false) = true` and on every node the request would have to queue. With
`require_available = true` the code returns node `1` for every draw, not the sentinel. -/
theorem require_available_backpressured :
    find exBackpressureRequire 1 = some backpressured ∧
    backpressured.IsAvailable () false = false ∧
    (mkNode false false 1).IsFeasible () = false ∧
    (∀ id n, id ≠ 0 → find exBackpressureRequire id = some n →
      n.IsAvailable () false = false) ∧
    (∀ d : ℚ, NewHybridPolicy () 0 exBackpressureRequire (1/2) false true d = some 1) := by
  refine ⟨rfl, rfl, rfl, ?_, ?_⟩
  · intro id n hne hn
    simp only [exBackpressureRequire, find] at hn
    split at hn
    · rename_i h0
      exact absurd h0.symm hne
    · split at hn
      · cases hn
        rfl
      · split at hn
        · cases hn
          rfl
        · cases hn
  · intro d
    have hl0 : find exBackpressureRequire 0 = some (mkNode false false 1) := rfl
    have h1 : ¬ ((false : Bool) = false ∧
        lightlyLoaded () (1/2) (mkNode false false 1) = true) := by decide
    have h2 : (remoteIds exBackpressureRequire 0).find?
        (testAt exBackpressureRequire (lightlyLoaded () (1/2))) = some 1 := by decide!
    rw [NewHybridPolicy_eq () 0 exBackpressureRequire (1/2) false true d _ hl0, if_neg h1, h2]

/-- C18 (code at the failing input): the local node `0` is infeasible, so it is not seeded as
fallback; no node is available; the remote nodes `-1` and `3` are feasible. The loop visits
`-1` first and stores it, the test `feasible_node_id == -1` succeeds again at node `3`, which
replaces it, and with `require_available = false` the policy returns `3` instead of the
smallest feasible remote id `-1`. -/
theorem fallback_overwritten :
    remoteIds exNegOne 0 = [-1, 3] ∧
    testAt exNegOne (fun n => n.IsFeasible ()) (-1) = true ∧
    (∀ id n, find exNegOne id = some n → (GetNodeInfo n ()).is_available = false) ∧
    walk () exNegOne (1/2) (remoteIds exNegOne 0) (-1) [] = some (.done 3 []) ∧
    (∀ d : ℚ, NewHybridPolicy () 0 exNegOne (1/2) false false d = some 3) := by
  refine ⟨by decide, by decide, ?_, by decide!, ?_⟩
  · intro id n hn
    simp only [exNegOne, find] at hn
    split at hn
    · cases hn; decide!
    · split at hn
      · cases hn; decide!
      · split at hn
        · cases hn; decide!
        · cases hn
  · intro d
    have hl : find exNegOne 0 = some (mkNode false false 1) := rfl
    have h1 : ¬ ((false : Bool) = false ∧
        lightlyLoaded () (1/2) (mkNode false false 1) = true) := by decide
    have h2 : (remoteIds exNegOne 0).find? (testAt exNegOne (lightlyLoaded () (1/2)))
        = none := by decide!
    have h3 : candidates () exNegOne (1/2) 0 = [] := by decide!
    rw [NewHybridPolicy_eq () 0 exNegOne (1/2) false false d _ hl, if_neg h1, h2]
    simp only [h3, if_true]
    decide

/-- C19: `HybridPolicy` is exactly `NewHybridPolicy`. For every request, local id, node map,
threshold, flags and draw the entry point returns the result of `NewHybridPolicy` (a value
or the failed check); the round-robin statements written after the `return` do not contribute:
on the map with a single feasible, available node loaded at `0.9` they would select node `0`
under `require_available = true`, while `HybridPolicy` returns `-1`. -/
theorem HybridPolicy_eq_NewHybridPolicy {Req : Type} (req : Req) (l : Int)
    (nodes : List (Int × Node Req)) (thr : ℚ) (fs ra : Bool) (d : ℚ) :
    HybridPolicy req l nodes thr fs ra d = NewHybridPolicy req l nodes thr fs ra d ∧
    legacyRoundRobin () 0 exLoadedLocal (1/2) false true = some 0 ∧
    HybridPolicy () 0 exLoadedLocal (1/2) false true d = some (-1) := by
  refine ⟨rfl, by decide!, ?_⟩
  have hl : find exLoadedLocal 0 = some (mkNode true true (9/10)) := rfl
  have h1 : ¬ ((false : Bool) = false ∧
      lightlyLoaded () (1/2) (mkNode true true (9/10)) = true) := by decide!
  have h2 : (remoteIds exLoadedLocal 0).find? (testAt exLoadedLocal (lightlyLoaded () (1/2)))
      = none := by decide
  have h3 : candidates () exLoadedLocal (1/2) 0 = [] := by decide
  unfold HybridPolicy
  rw [NewHybridPolicy_eq () 0 exLoadedLocal (1/2) false true d _ hl, if_neg h1, h2]
  simp only [h3, if_true]

end Ray
